import Mathlib

/-!
QtChatSystem: the chat server (`chat-server/server.hpp`)

A shallow embedding of the relay engine of the chat server.

* `std::string` is a list of characters (`Str`).
* A `ClientPtr` (a `std::shared_ptr<Client>`) is the index of a `Client` object in a heap;
  `nullptr` is `none`.  Objects are never freed in the model: a `Client` removed from
  `m_clients` is kept alive by the `self` pointer captured in its pending completion handler.
* `Client::write` appends the message to the `sent` log of the client (the bytes put on the
  socket are the message followed by a line feed).
* The asynchronous reads are modelled by the field `pending`, which records the completion
  handler armed on the socket: the one of `Client::start`, the one of `Client::read`, or none.
-/

namespace Server

/-- A `std::string`. -/
abbrev Str := List Char

/-- A `std::shared_ptr<Client>` that is not null. -/
abbrev ClientPtr := Nat

/-- The function `std::isspace` in the "C" locale: space, `\t`, `\n`, `\v`, `\f`, `\r`. -/
def isspace (c : Char) : Bool :=
  c = ' ' ∨ c = '\t' ∨ c = '\n' ∨ c = Char.ofNat 11 ∨ c = Char.ofNat 12 ∨ c = '\r'

/-- The manipulator `iss >> std::ws`: what is left of the stream once the leading white space
is consumed. -/
def ws (s : Str) : Str := s.dropWhile isspace

/-- The extraction `iss >> word` on a stream holding `s`: leading white space is skipped, then
characters are taken up to the next white space.  The extraction fails (`none`) when the end of
the stream is reached before any character is taken; otherwise the word and the rest of the
stream are returned. -/
def extract (s : Str) : Option (Str × Str) :=
  match ws s with
  | [] => none
  | c :: t => some ((c :: t).takeWhile (fun x => !isspace x), (c :: t).dropWhile (fun x => !isspace x))

/-- The call `std::getline (iss, content)` on a stream holding `s`, for an empty `content`: the
characters up to the first line feed (nothing when the stream is at its end). -/
def getline (s : Str) : Str := s.takeWhile (fun x => x ≠ '\n')

/-- The completion handler armed on the socket of a client. -/
inductive Pending where
  /-- The handler of `Client::start`, which reads the alias. -/
  | start
  /-- The handler of `Client::read`, which reads the messages. -/
  | read
  /-- No handler: nothing is read from the socket any more. -/
  | idle
  deriving DecidableEq, Repr

/-- A `Server::Client` object. -/
structure Client where
  /-- The alias (empty until `rename` is called). -/
  m_alias : Str
  /-- The flag `m_active`. -/
  m_active : Bool
  /-- The handler armed on the socket. -/
  pending : Pending
  /-- The messages given to `write`, oldest first. -/
  sent : List Str
  deriving DecidableEq, Repr

/-- The object built by the constructor `Client::Client`: `m_active` is false, the alias is
empty. -/
def Client.new : Client := ⟨[], false, Pending.idle, []⟩

end Server

/-- The `Server` object: the heap of `Client` objects, the number of objects made so far, and
the list `m_clients`. -/
structure Server where
  /-- The `Client` object behind each pointer. -/
  heap : Server.ClientPtr → Server.Client
  /-- The number of `Client` objects made so far (the next pointer). -/
  fresh : Nat
  /-- The list `m_clients`. -/
  m_clients : List Server.ClientPtr

namespace Server

def INVALID_ALIAS : Str := "#error invalid_alias".toList
def INVALID_COMMAND : Str := "#error invalid_command".toList
def INVALID_RECIPIENT : Str := "#error invalid_recipient".toList
def MISSING_ARGUMENT : Str := "#error missing_argument".toList

/-- The server built by the constructor `Server::Server`: `m_clients` is empty. -/
def init : Server := ⟨fun _ => Client.new, 0, []⟩

/-- Assignment to the object behind the pointer `p`. -/
def store (s : Server) (p : ClientPtr) (c : Client) : Server :=
  { s with heap := fun q => if q = p then c else s.heap q }

/-- The method `Client::write`. -/
def Client.write (s : Server) (self : ClientPtr) (message : Str) : Server :=
  s.store self { s.heap self with sent := (s.heap self).sent ++ [message] }

/-- The method `Client::rename`. -/
def Client.rename (s : Server) (self : ClientPtr) (name : Str) : Server :=
  Client.write (s.store self { s.heap self with m_alias := name }) self ("#alias ".toList ++ name)

/-- The method `Server::find`: the first client of `m_clients` whose alias is `name`. -/
def find (s : Server) (name : Str) : Option ClientPtr :=
  s.m_clients.find? (fun client => (s.heap client).m_alias = name)

/-- The loop of `broadcast` over a list of clients. -/
def bcast (message : Str) (emitter : Option ClientPtr) (l : List ClientPtr) (s : Server) :
    Server :=
  l.foldl
    (fun acc client => if some client ≠ emitter then Client.write acc client message else acc) s

/-- The method `Server::broadcast`; `emitter` is `none` for the default argument `nullptr`. -/
def broadcast (s : Server) (message : Str) (emitter : Option ClientPtr) : Server :=
  s.m_clients.foldl
    (fun acc client => if some client ≠ emitter then Client.write acc client message else acc) s

/-- The method `Server::process_message`. -/
def process_message (s : Server) (client : ClientPtr) (data : Str) : Server :=
  s.broadcast ("<b>".toList ++ (s.heap client).m_alias ++ "</b> : ".toList ++ data) none

/-- The method `Server::remove`; `std::list::remove` erases every element equal to `client`. -/
def remove (s : Server) (client : ClientPtr) : Server :=
  let s1 : Server := { s with m_clients := s.m_clients.filter (fun c => c ≠ client) }
  if (s1.heap client).m_alias ≠ [] then
    s1.broadcast ("#disconnected ".toList ++ (s1.heap client).m_alias) none
  else s1

/-- The method `Server::process_quit`. -/
def process_quit (s : Server) (client : ClientPtr) (_data : Str) : Server :=
  s.remove client

/-- The loop of `Server::process_list`: the state is the pair of `aliases` and `first`. -/
def list_loop (s : Server) : Str × Bool :=
  s.m_clients.foldl
    (fun st c => ((if !st.2 then st.1 ++ " ".toList else st.1) ++ (s.heap c).m_alias, false))
    ([], true)

/-- The method `Server::process_list`. -/
def process_list (s : Server) (client : ClientPtr) (_data : Str) : Server :=
  Client.write s client ("#list ".toList ++ (list_loop s).1)

/-- The method `Server::process_alias`. -/
def process_alias (s : Server) (client : ClientPtr) (data : Str) : Server :=
  match extract data with
  | some (new_alias, _) =>
    if s.find new_alias = none then
      let old_alias := (s.heap client).m_alias
      let s1 := Client.rename s client new_alias
      if old_alias ≠ [] then
        s1.broadcast ("#renamed ".toList ++ old_alias ++ " ".toList ++ new_alias) none
      else s1
    else Client.write s client INVALID_ALIAS
  | none => Client.write s client MISSING_ARGUMENT

/-- The method `Server::process_private`. -/
def process_private (s : Server) (client : ClientPtr) (data : Str) : Server :=
  match extract data with
  | some (recipient_alias, rest) =>
    match s.find recipient_alias with
    | some recipient =>
      let content := getline (ws rest)
      if content ≠ [] then
        Client.write s recipient
          ("#private ".toList ++ (s.heap client).m_alias ++ " ".toList ++ content)
      else Client.write s client MISSING_ARGUMENT
    | none => Client.write s client INVALID_RECIPIENT
  | none => Client.write s client MISSING_ARGUMENT

/-- The type `Server::Processor`. -/
abbrev Processor := Server → ClientPtr → Str → Server

/-- The table `Server::PROCESSORS`. -/
def PROCESSORS : List (Str × Processor) :=
  [("/quit".toList, process_quit),
   ("/list".toList, process_list),
   ("/alias".toList, process_alias),
   ("/private".toList, process_private)]

/-- The method `Server::process`. -/
def process (s : Server) (client : ClientPtr) (message : Str) : Server :=
  match extract message with
  | some (command, rest) =>
    if command.head? = some '/' then
      let data := ws rest
      match PROCESSORS.lookup command with
      | some processor => processor s client data
      | none => Client.write s client INVALID_COMMAND
    else s.process_message client message
  | none => s

/-- Arming of a completion handler on the socket of `self` (`async_read_until`). -/
def arm (s : Server) (self : ClientPtr) (h : Pending) : Server :=
  s.store self { s.heap self with pending := h }

/-- The method `Client::start`: nothing when the client is active, else the handler reading the
alias is armed. -/
def Client.start (s : Server) (self : ClientPtr) : Server :=
  if (s.heap self).m_active then s else s.arm self Pending.start

/-- The method `Client::stop`.  No function of the server calls it. -/
def Client.stop (s : Server) (self : ClientPtr) : Server :=
  s.store self { s.heap self with m_active := false }

/-- The method `Client::read`: the handler reading the messages is armed. -/
def Client.read (s : Server) (self : ClientPtr) : Server :=
  s.arm self Pending.read

/-- The completion handler of `Client::start` when a line `name` has been read.  In the branch
of the taken alias nothing is armed again. -/
def Client.start_line (s : Server) (self : ClientPtr) (name : Str) : Server :=
  let s0 := s.arm self Pending.idle
  if s0.find name ≠ none then
    Client.write s0 self INVALID_ALIAS
  else
    let s1 := s0.store self { s0.heap self with m_active := true }
    let s2 := Client.rename s1 self name
    let s3 := s2.process_list self []
    let s4 := s3.broadcast ("#connected ".toList ++ name) (some self)
    Client.read s4 self

/-- The completion handler of `Client::start` on an error. -/
def Client.start_error (s : Server) (self : ClientPtr) : Server :=
  let s0 := s.arm self Pending.idle
  { s0 with m_clients := s0.m_clients.filter (fun c => c ≠ self) }

/-- The completion handler of `Client::read` when the buffer holds the lines `messages`: each
is processed in turn, then the handler is armed again when the client is still active. -/
def Client.read_lines (s : Server) (self : ClientPtr) (messages : List Str) : Server :=
  let s0 := s.arm self Pending.idle
  let s1 := messages.foldl (fun acc message => acc.process self message) s0
  if (s1.heap self).m_active then Client.read s1 self else s1

/-- The completion handler of `Client::read` on an error. -/
def Client.read_error (s : Server) (self : ClientPtr) : Server :=
  let s0 := s.arm self Pending.idle
  s0.process_quit self []

/-- The completion handler of `Server::accept` without error: a new client is put at the back
of `m_clients` and started. -/
def accept (s : Server) : Server :=
  let s1 : Server :=
    { heap := fun q => if q = s.fresh then Client.new else s.heap q
      fresh := s.fresh + 1
      m_clients := s.m_clients ++ [s.fresh] }
  Client.start s1 s.fresh

/-- What happens to the server: a connection is accepted, lines arrive on the socket of a
client, or the socket of a client fails (error or end of file). -/
inductive Event where
  | accept
  | recv (p : ClientPtr) (lines : List Str)
  | close (p : ClientPtr)
  deriving DecidableEq, Repr

/-- One event.  Lines are consumed by the handler that is armed: the handler of `Client::start`
takes the first line and leaves the others in the buffer for the handler of `Client::read`,
which then completes at once; with no handler armed nothing is read. -/
def step (s : Server) : Event → Server
  | Event.accept => s.accept
  | Event.recv p lines =>
    match (s.heap p).pending with
    | Pending.start =>
      match lines with
      | [] => s
      | name :: rest =>
        let s1 := Client.start_line s p name
        match rest, (s1.heap p).pending with
        | _ :: _, Pending.read => Client.read_lines s1 p rest
        | _, _ => s1
    | Pending.read => Client.read_lines s p lines
    | Pending.idle => s
  | Event.close p =>
    match (s.heap p).pending with
    | Pending.start => Client.start_error s p
    | Pending.read => Client.read_error s p
    | Pending.idle => s

/-- The server after a sequence of events, from the empty server. -/
def run (events : List Event) : Server := events.foldl step init

/-- The scenario of two clients: both are accepted, the first takes the alias `alice`, the
second the alias `bob`. -/
def two_clients : Server :=
  run [Event.accept, Event.accept, Event.recv 0 ["alice".toList], Event.recv 1 ["bob".toList]]

/-- The scenario of three clients: three are accepted, the first takes the alias `alice`, the
third the alias `bob`, the second has not sent its alias yet. -/
def three_clients : Server :=
  run [Event.accept, Event.accept, Event.accept, Event.recv 0 ["alice".toList],
    Event.recv 2 ["bob".toList]]

/-- The scenario of a refused alias: the first client holds `bob`, the second client is
accepted and proposes `bob`, which is refused. -/
def refused : Server :=
  run [Event.accept, Event.recv 0 ["bob".toList], Event.accept, Event.recv 1 ["bob".toList]]

/-- The scenario of an alias with a space: two clients are accepted, the first sends the line
`bob smith` as its alias, the second the line `alice`. -/
def spaced_alias : Server :=
  run [Event.accept, Event.accept, Event.recv 0 ["bob smith".toList],
    Event.recv 1 ["alice".toList]]

/-- No client receives a line beginning with `#error` between `s` and `t`: each log of `t` is
the log of `s` followed by lines that do not begin with `#error`. -/
def NoError (s t : Server) : Prop :=
  ∀ q, ∃ new, (t.heap q).sent = (s.heap q).sent ++ new ∧
    ∀ m ∈ new, ¬ "#error".toList <+: m

/-- Two servers that agree on everything but the `sent` logs. -/
def SameCore (s t : Server) : Prop :=
  t.m_clients = s.m_clients ∧ t.fresh = s.fresh ∧
    ∀ q, (t.heap q).m_alias = (s.heap q).m_alias ∧ (t.heap q).m_active = (s.heap q).m_active ∧
      (t.heap q).pending = (s.heap q).pending

/-- The invariant of the server: no pointer is twice in `m_clients`, the pointers of
`m_clients` are pointers of objects made by `accept`, a client is active exactly when its alias
is set, the aliases that are set are held by one client of `m_clients` each, a client waiting
for its alias is in `m_clients` and not active, a client waiting for messages is active. -/
structure Inv (s : Server) : Prop where
  nodup : s.m_clients.Nodup
  lt_fresh : ∀ p ∈ s.m_clients, p < s.fresh
  active_iff : ∀ p, (s.heap p).m_active = true ↔ (s.heap p).m_alias ≠ []
  unique : ∀ p ∈ s.m_clients, ∀ q ∈ s.m_clients,
    (s.heap p).m_alias = (s.heap q).m_alias → (s.heap p).m_alias ≠ [] → p = q
  start_mem : ∀ p, (s.heap p).pending = Pending.start →
    p ∈ s.m_clients ∧ (s.heap p).m_active = false
  read_active : ∀ p, (s.heap p).pending = Pending.read → (s.heap p).m_active = true

end Server

/-!
The chat client (`chat-client/Chat.cpp`): the handler of `readyRead` and the processors of
the lines of the server.  A `QString` is a list of characters, a `QTextStream` on a string is
the part of the string that is not read yet, and a signal emitted by `Chat` is a value of
`Chat.Signal`.
-/

namespace Chat

open Server (Str)

/-- The function `QChar::isSpace`: the space, the characters 9 to 13, the characters 0x85 and
0xA0, and the characters of the Unicode categories Zs, Zl and Zp (0x1680, 0x2000 to 0x200A,
0x2028, 0x2029, 0x202F, 0x205F, 0x3000). -/
def isSpace (c : Char) : Bool :=
  c.toNat = 32 ∨ (9 ≤ c.toNat ∧ c.toNat ≤ 13) ∨ c.toNat = 133 ∨ c.toNat = 160 ∨
    c.toNat = 5760 ∨ (8192 ≤ c.toNat ∧ c.toNat ≤ 8202) ∨ c.toNat = 8232 ∨ c.toNat = 8233 ∨
    c.toNat = 8239 ∨ c.toNat = 8287 ∨ c.toNat = 12288

/-- The extraction `is >> word` of `QTextStream` for a `QString`: the leading white space is
skipped, then the characters up to the next white space (which is left in the stream) make the
word; the word is empty when the end of the stream is reached first.  The word and the rest of
the stream are returned. -/
def readWord (is : Str) : Str × Str :=
  ((is.dropWhile isSpace).takeWhile (fun c => !isSpace c),
    (is.dropWhile isSpace).dropWhile (fun c => !isSpace c))

/-- The function `QString::trimmed`: the white space is removed at both ends. -/
def trimmed (s : Str) : Str :=
  ((s.dropWhile isSpace).reverse.dropWhile isSpace).reverse

/-- The signals that `Chat` emits for a line of the server. -/
inductive Signal where
  /-- The signal `message`. -/
  | message (m : Str)
  /-- The signal `error`. -/
  | error (id : Str)
  /-- The signal `alias`. -/
  | alias_ (pseudo : Str)
  /-- The signal `user_connected`. -/
  | user_connected (pseudo : Str)
  /-- The signal `user_disconnected`. -/
  | user_disconnected (pseudo : Str)
  /-- The signal `user_renamed`. -/
  | user_renamed (oldPseudo newPseudo : Str)
  /-- The signal `user_list`. -/
  | user_list (pseudos : List Str)
  /-- The signal `user_private`. -/
  | user_private (sender message : Str)
  deriving DecidableEq, Repr

/-- The method `Chat::process_alias`. -/
def process_alias (is : Str) : Signal := Signal.alias_ (readWord is).1

/-- The method `Chat::process_connected`. -/
def process_connected (is : Str) : Signal := Signal.user_connected (readWord is).1

/-- The method `Chat::process_disconnected`. -/
def process_disconnected (is : Str) : Signal := Signal.user_disconnected (readWord is).1

/-- The method `Chat::process_renamed`. -/
def process_renamed (is : Str) : Signal :=
  Signal.user_renamed (readWord is).1 (readWord (readWord is).2).1

/-- The loop of `Chat::process_list`: while the stream is not at its end (`atEnd`), a word is
read and, when it is not empty, put at the back of `pseudos`. -/
def list_loop (is : Str) (pseudos : List Str) : List Str :=
  match is with
  | [] => pseudos
  | c :: t =>
    list_loop (readWord (c :: t)).2
      (if (readWord (c :: t)).1 ≠ [] then pseudos ++ [(readWord (c :: t)).1] else pseudos)
termination_by is.length
decreasing_by
  simp only [readWord, List.length_cons]
  have h1 : ∀ (p : Char → Bool) (l : Str), (l.dropWhile p).length ≤ l.length :=
    fun p l => (List.dropWhile_suffix p).length_le
  by_cases hc : isSpace c = true
  · rw [List.dropWhile_cons_of_pos hc]
    exact Nat.lt_succ_of_le (Nat.le_trans (h1 _ _) (h1 _ _))
  · rw [List.dropWhile_cons_of_neg hc, List.dropWhile_cons_of_pos (by simpa using hc)]
    exact Nat.lt_succ_of_le (h1 _ _)

/-- The method `Chat::process_list`. -/
def process_list (is : Str) : Signal := Signal.user_list (list_loop is [])

/-- The method `Chat::process_private`. -/
def process_private (is : Str) : Signal :=
  Signal.user_private (readWord is).1 (trimmed (readWord is).2)

/-- The method `Chat::process_error`. -/
def process_error (is : Str) : Signal := Signal.error (readWord is).1

/-- The type `Chat::Processor`. -/
abbrev Processor := Str → Signal

/-- The table `Chat::PROCESSORS`. -/
def PROCESSORS : List (Str × Processor) :=
  [("#alias".toList, process_alias),
   ("#connected".toList, process_connected),
   ("#disconnected".toList, process_disconnected),
   ("#renamed".toList, process_renamed),
   ("#list".toList, process_list),
   ("#private".toList, process_private),
   ("#error".toList, process_error)]

/-- The body of the loop of the handler of `readyRead`, for a line `m` of the socket without
its line feed: the command is read, and the processor of the table, if any, is called on the
rest of the stream; else the signal `message` is emitted with the whole line. -/
def readyRead_line (m : Str) : Signal :=
  match PROCESSORS.lookup (readWord m).1 with
  | some processor => processor (readWord m).2
  | none => Signal.message m

end Chat

/-! ## The heap: `store`, `write` and `arm` -/

namespace Server

@[simp] theorem store_m_clients (s : Server) (p : ClientPtr) (c : Client) :
    (s.store p c).m_clients = s.m_clients := rfl

@[simp] theorem store_fresh (s : Server) (p : ClientPtr) (c : Client) :
    (s.store p c).fresh = s.fresh := rfl

@[simp] theorem store_heap_self (s : Server) (p : ClientPtr) (c : Client) :
    (s.store p c).heap p = c := by
  simp [store]

theorem store_heap_of_ne (s : Server) (p : ClientPtr) (c : Client) {q : ClientPtr}
    (h : q ≠ p) : (s.store p c).heap q = s.heap q := by
  simp [store, h]

theorem store_heap (s : Server) (p : ClientPtr) (c : Client) (q : ClientPtr) :
    (s.store p c).heap q = if q = p then c else s.heap q := rfl

@[simp] theorem write_m_clients (s : Server) (p : ClientPtr) (m : Str) :
    (Client.write s p m).m_clients = s.m_clients := rfl

@[simp] theorem write_fresh (s : Server) (p : ClientPtr) (m : Str) :
    (Client.write s p m).fresh = s.fresh := rfl

@[simp] theorem write_alias (s : Server) (p : ClientPtr) (m : Str) (q : ClientPtr) :
    ((Client.write s p m).heap q).m_alias = (s.heap q).m_alias := by
  by_cases h : q = p <;> simp [Client.write, store_heap, h]

@[simp] theorem write_active (s : Server) (p : ClientPtr) (m : Str) (q : ClientPtr) :
    ((Client.write s p m).heap q).m_active = (s.heap q).m_active := by
  by_cases h : q = p <;> simp [Client.write, store_heap, h]

@[simp] theorem write_pending (s : Server) (p : ClientPtr) (m : Str) (q : ClientPtr) :
    ((Client.write s p m).heap q).pending = (s.heap q).pending := by
  by_cases h : q = p <;> simp [Client.write, store_heap, h]

@[simp] theorem write_sent_self (s : Server) (p : ClientPtr) (m : Str) :
    ((Client.write s p m).heap p).sent = (s.heap p).sent ++ [m] := by
  simp [Client.write]

theorem write_heap_of_ne (s : Server) (p : ClientPtr) (m : Str) {q : ClientPtr} (h : q ≠ p) :
    (Client.write s p m).heap q = s.heap q := by
  simp [Client.write, store_heap, h]

theorem write_sent (s : Server) (p : ClientPtr) (m : Str) (q : ClientPtr) :
    ((Client.write s p m).heap q).sent =
      if q = p then (s.heap q).sent ++ [m] else (s.heap q).sent := by
  by_cases h : q = p
  · subst h; simp
  · simp [write_heap_of_ne, h]

@[simp] theorem arm_m_clients (s : Server) (p : ClientPtr) (h : Pending) :
    (s.arm p h).m_clients = s.m_clients := rfl

@[simp] theorem arm_fresh (s : Server) (p : ClientPtr) (h : Pending) :
    (s.arm p h).fresh = s.fresh := rfl

@[simp] theorem arm_alias (s : Server) (p : ClientPtr) (h : Pending) (q : ClientPtr) :
    ((s.arm p h).heap q).m_alias = (s.heap q).m_alias := by
  by_cases hq : q = p <;> simp [arm, store_heap, hq]

@[simp] theorem arm_active (s : Server) (p : ClientPtr) (h : Pending) (q : ClientPtr) :
    ((s.arm p h).heap q).m_active = (s.heap q).m_active := by
  by_cases hq : q = p <;> simp [arm, store_heap, hq]

@[simp] theorem arm_sent (s : Server) (p : ClientPtr) (h : Pending) (q : ClientPtr) :
    ((s.arm p h).heap q).sent = (s.heap q).sent := by
  by_cases hq : q = p <;> simp [arm, store_heap, hq]

theorem arm_pending (s : Server) (p : ClientPtr) (h : Pending) (q : ClientPtr) :
    ((s.arm p h).heap q).pending = if q = p then h else (s.heap q).pending := by
  by_cases hq : q = p <;> simp [arm, store_heap, hq]

@[simp] theorem arm_find (s : Server) (p : ClientPtr) (h : Pending) (name : Str) :
    (s.arm p h).find name = s.find name := by
  simp [find]

@[simp] theorem write_find (s : Server) (p : ClientPtr) (m : Str) (name : Str) :
    (Client.write s p m).find name = s.find name := by
  simp [find]

/-! ## `broadcast` -/

theorem broadcast_eq_bcast (s : Server) (m : Str) (e : Option ClientPtr) :
    s.broadcast m e = bcast m e s.m_clients s := rfl

@[simp] theorem bcast_nil (m : Str) (e : Option ClientPtr) (s : Server) :
    bcast m e [] s = s := rfl

theorem bcast_cons (m : Str) (e : Option ClientPtr) (c : ClientPtr) (l : List ClientPtr)
    (s : Server) :
    bcast m e (c :: l) s = bcast m e l (if some c ≠ e then Client.write s c m else s) := rfl

theorem bcast_core (m : Str) (e : Option ClientPtr) (l : List ClientPtr) (s : Server) :
    (bcast m e l s).m_clients = s.m_clients ∧ (bcast m e l s).fresh = s.fresh ∧
      ∀ q, ((bcast m e l s).heap q).m_alias = (s.heap q).m_alias ∧
        ((bcast m e l s).heap q).m_active = (s.heap q).m_active ∧
        ((bcast m e l s).heap q).pending = (s.heap q).pending := by
  induction l generalizing s with
  | nil => simp
  | cons c l ih =>
    rw [bcast_cons]
    obtain ⟨h1, h2, h3⟩ := ih (if some c ≠ e then Client.write s c m else s)
    refine ⟨?_, ?_, ?_⟩
    · rw [h1]; split <;> simp
    · rw [h2]; split <;> simp
    · intro q
      obtain ⟨a1, a2, a3⟩ := h3 q
      rw [a1, a2, a3]
      split <;> simp

theorem bcast_sent (m : Str) (e : Option ClientPtr) (l : List ClientPtr) (s : Server)
    (q : ClientPtr) :
    ((bcast m e l s).heap q).sent =
      (s.heap q).sent ++ List.replicate (if some q = e then 0 else l.count q) m := by
  induction l generalizing s with
  | nil => simp
  | cons c l ih =>
    rw [bcast_cons, ih]
    by_cases hqe : some q = e
    · simp only [hqe, if_true, List.replicate_zero, List.append_nil]
      by_cases hce : some c = e
      · simp [hce]
      · have hcq : q ≠ c := by
          intro h; subst h; exact hce hqe
        simp [hce, write_heap_of_ne, hcq]
    · simp only [hqe, if_false]
      by_cases hcq : q = c
      · subst hcq
        simp [hqe, List.replicate_succ, List.count_cons_self]
      · rw [List.count_cons_of_ne hcq]
        by_cases hce : some c = e
        · simp [hce]
        · simp [hce, write_heap_of_ne, hcq]

@[simp] theorem broadcast_m_clients (s : Server) (m : Str) (e : Option ClientPtr) :
    (s.broadcast m e).m_clients = s.m_clients := (bcast_core m e _ s).1

@[simp] theorem broadcast_fresh (s : Server) (m : Str) (e : Option ClientPtr) :
    (s.broadcast m e).fresh = s.fresh := (bcast_core m e _ s).2.1

@[simp] theorem broadcast_alias (s : Server) (m : Str) (e : Option ClientPtr) (q : ClientPtr) :
    ((s.broadcast m e).heap q).m_alias = (s.heap q).m_alias := ((bcast_core m e _ s).2.2 q).1

@[simp] theorem broadcast_active (s : Server) (m : Str) (e : Option ClientPtr)
    (q : ClientPtr) :
    ((s.broadcast m e).heap q).m_active = (s.heap q).m_active := ((bcast_core m e _ s).2.2 q).2.1

@[simp] theorem broadcast_pending (s : Server) (m : Str) (e : Option ClientPtr)
    (q : ClientPtr) :
    ((s.broadcast m e).heap q).pending = (s.heap q).pending := ((bcast_core m e _ s).2.2 q).2.2

/-- What `broadcast` sends when no client is twice in `m_clients`: one copy to each client of
`m_clients` but the emitter, nothing to the others. -/
theorem broadcast_sent (s : Server) (m : Str) (e : Option ClientPtr) (q : ClientPtr)
    (hnd : s.m_clients.Nodup) :
    ((s.broadcast m e).heap q).sent =
      if q ∈ s.m_clients ∧ some q ≠ e then (s.heap q).sent ++ [m] else (s.heap q).sent := by
  rw [broadcast_eq_bcast, bcast_sent]
  by_cases hqe : some q = e
  · simp [hqe]
  · by_cases hq : q ∈ s.m_clients
    · simp [hqe, hq, List.count_eq_one_of_mem hnd hq]
    · simp [hqe, hq, List.count_eq_zero_of_not_mem hq]

@[simp] theorem broadcast_find (s : Server) (m : Str) (e : Option ClientPtr) (name : Str) :
    (s.broadcast m e).find name = s.find name := by
  simp [find]

end Server

/-! ## The extractions -/

namespace Server

theorem ws_of_blank (sp : Str) (hsp : ∀ c ∈ sp, isspace c = true) (t : Str) :
    ws (sp ++ t) = ws t := by
  induction sp with
  | nil => rfl
  | cons c sp ih =>
    have hc : isspace c = true := hsp c (List.mem_cons_self _ _)
    have ih2 := ih (fun x hx => hsp x (List.mem_cons_of_mem _ hx))
    simp only [ws] at ih2 ⊢
    simp [List.dropWhile_cons, hc, ih2]

theorem ws_blank (sp : Str) (hsp : ∀ c ∈ sp, isspace c = true) : ws sp = [] := by
  have h := ws_of_blank sp hsp []
  simpa [ws] using h

theorem ws_cons_of_not_space (c : Char) (t : Str) (hc : isspace c = false) :
    ws (c :: t) = c :: t := by
  simp [ws, List.dropWhile_cons, hc]

theorem takeWhile_token (X tail : Str) (hX : ∀ c ∈ X, isspace c = false)
    (htail : ∀ c ∈ tail.head?, isspace c = true) :
    (X ++ tail).takeWhile (fun x => !isspace x) = X ∧
      (X ++ tail).dropWhile (fun x => !isspace x) = tail := by
  induction X with
  | nil =>
    cases tail with
    | nil => simp
    | cons c t =>
      have hc : isspace c = true := htail c (by simp)
      simp [List.takeWhile_cons, List.dropWhile_cons, hc]
  | cons x X ih =>
    have hx : isspace x = false := hX x (List.mem_cons_self _ _)
    obtain ⟨h1, h2⟩ := ih (fun c hc => hX c (List.mem_cons_of_mem _ hc))
    simp [List.takeWhile_cons, List.dropWhile_cons, hx, h1, h2]

/-- The extraction of a word written in the stream: after white space `sp`, the word `X` (not
empty, without white space), followed by the end of the stream or by white space. -/
theorem extract_token (sp X tail : Str) (hsp : ∀ c ∈ sp, isspace c = true)
    (hne : X ≠ []) (hX : ∀ c ∈ X, isspace c = false)
    (htail : ∀ c ∈ tail.head?, isspace c = true) :
    extract (sp ++ (X ++ tail)) = some (X, tail) := by
  obtain ⟨x, X1, rfl⟩ := List.exists_cons_of_ne_nil hne
  have hx : isspace x = false := hX x (List.mem_cons_self _ _)
  obtain ⟨h1, h2⟩ := takeWhile_token (x :: X1) tail hX htail
  have hws : ws (sp ++ (x :: X1 ++ tail)) = x :: (X1 ++ tail) := by
    rw [ws_of_blank sp hsp]
    exact ws_cons_of_not_space x _ hx
  unfold extract
  rw [hws]
  simp only [List.cons_append] at h1 h2
  simp only [h1, h2]

/-- The extraction fails on a stream of white space. -/
theorem extract_blank (sp : Str) (hsp : ∀ c ∈ sp, isspace c = true) : extract sp = none := by
  unfold extract
  rw [ws_blank sp hsp]

/-- An extracted word is not empty and holds no white space. -/
theorem extract_word {s w r : Str} (h : extract s = some (w, r)) :
    w ≠ [] ∧ ∀ c ∈ w, isspace c = false := by
  unfold extract at h
  split at h
  · exact absurd h (by simp)
  · rename_i c t hws
    have hc : isspace c = false := by
      have hh := List.head_dropWhile_not isspace s
      simp only [ws] at hws
      simp only [hws] at hh
      simpa using hh (by simp)
    simp only [Option.some.injEq, Prod.mk.injEq] at h
    obtain ⟨h1, -⟩ := h
    subst h1
    refine ⟨by simp [List.takeWhile_cons, hc], ?_⟩
    intro x hx
    have := List.mem_takeWhile_imp hx
    simpa using this

/-! ## `find` -/

theorem find_eq_none_iff (s : Server) (name : Str) :
    s.find name = none ↔ ∀ q ∈ s.m_clients, (s.heap q).m_alias ≠ name := by
  simp [find, List.find?_eq_none]

theorem find_eq_some {s : Server} {name : Str} {r : ClientPtr} (h : s.find name = some r) :
    r ∈ s.m_clients ∧ (s.heap r).m_alias = name := by
  refine ⟨List.mem_of_find?_eq_some h, ?_⟩
  have := List.find?_some h
  simpa using this

theorem find_of_mem {s : Server} {name : Str} {r : ClientPtr} (hr : r ∈ s.m_clients)
    (ha : (s.heap r).m_alias = name) : ∃ q, s.find name = some q := by
  cases h : s.find name with
  | some q => exact ⟨q, rfl⟩
  | none => exact absurd ha ((find_eq_none_iff s name).1 h r hr)

/-- When `r` is the only client of `m_clients` whose alias is `name`, `find` returns `r`. -/
theorem find_of_unique {s : Server} {name : Str} {r : ClientPtr} (hr : r ∈ s.m_clients)
    (ha : (s.heap r).m_alias = name)
    (hu : ∀ q ∈ s.m_clients, (s.heap q).m_alias = name → q = r) : s.find name = some r := by
  obtain ⟨q, hq⟩ := find_of_mem hr ha
  obtain ⟨h1, h2⟩ := find_eq_some hq
  rw [hq, hu q h1 h2]

/-! ## `rename` -/

@[simp] theorem rename_m_clients (s : Server) (p : ClientPtr) (n : Str) :
    (Client.rename s p n).m_clients = s.m_clients := rfl

@[simp] theorem rename_fresh (s : Server) (p : ClientPtr) (n : Str) :
    (Client.rename s p n).fresh = s.fresh := rfl

theorem rename_alias (s : Server) (p : ClientPtr) (n : Str) (q : ClientPtr) :
    ((Client.rename s p n).heap q).m_alias = if q = p then n else (s.heap q).m_alias := by
  by_cases h : q = p <;> simp [Client.rename, store_heap, h]

@[simp] theorem rename_active (s : Server) (p : ClientPtr) (n : Str) (q : ClientPtr) :
    ((Client.rename s p n).heap q).m_active = (s.heap q).m_active := by
  by_cases h : q = p <;> simp [Client.rename, store_heap, h]

@[simp] theorem rename_pending (s : Server) (p : ClientPtr) (n : Str) (q : ClientPtr) :
    ((Client.rename s p n).heap q).pending = (s.heap q).pending := by
  by_cases h : q = p <;> simp [Client.rename, store_heap, h]

theorem rename_sent (s : Server) (p : ClientPtr) (n : Str) (q : ClientPtr) :
    ((Client.rename s p n).heap q).sent =
      if q = p then (s.heap q).sent ++ ["#alias ".toList ++ n] else (s.heap q).sent := by
  by_cases h : q = p
  · subst h; simp [Client.rename]
  · simp [Client.rename, write_sent, store_heap, h]

end Server

/-! ## The invariant -/

namespace Server

theorem SameCore.refl (s : Server) : SameCore s s := ⟨rfl, rfl, fun _ => ⟨rfl, rfl, rfl⟩⟩

theorem SameCore.trans {s t u : Server} (h1 : SameCore s t) (h2 : SameCore t u) :
    SameCore s u := by
  obtain ⟨a1, a2, a3⟩ := h1
  obtain ⟨b1, b2, b3⟩ := h2
  refine ⟨b1.trans a1, b2.trans a2, fun q => ?_⟩
  obtain ⟨c1, c2, c3⟩ := a3 q
  obtain ⟨d1, d2, d3⟩ := b3 q
  exact ⟨d1.trans c1, d2.trans c2, d3.trans c3⟩

theorem sameCore_write (s : Server) (p : ClientPtr) (m : Str) :
    SameCore s (Client.write s p m) :=
  ⟨rfl, rfl, fun q => ⟨write_alias s p m q, write_active s p m q, write_pending s p m q⟩⟩

theorem sameCore_broadcast (s : Server) (m : Str) (e : Option ClientPtr) :
    SameCore s (s.broadcast m e) :=
  bcast_core m e _ s

theorem Inv.of_sameCore {s t : Server} (h : Inv s) (hc : SameCore s t) : Inv t := by
  obtain ⟨c1, c2, c3⟩ := hc
  have ha : ∀ q, (t.heap q).m_alias = (s.heap q).m_alias := fun q => (c3 q).1
  have hb : ∀ q, (t.heap q).m_active = (s.heap q).m_active := fun q => (c3 q).2.1
  have hp : ∀ q, (t.heap q).pending = (s.heap q).pending := fun q => (c3 q).2.2
  constructor
  · rw [c1]; exact h.nodup
  · rw [c1, c2]; exact h.lt_fresh
  · intro p; rw [ha, hb]; exact h.active_iff p
  · rw [c1]; intro p hp1 q hq1; rw [ha, ha]; exact h.unique p hp1 q hq1
  · rw [c1]; intro p; rw [hp, hb]; exact h.start_mem p
  · intro p; rw [hp, hb]; exact h.read_active p

theorem inv_init : Inv init := by
  constructor <;> simp [init, Client.new]

/-- A handler is taken off the socket, or the handler of `read` is armed on an active
client. -/
theorem inv_arm {s : Server} (h : Inv s) (p : ClientPtr) (k : Pending)
    (hk : k = Pending.idle ∨ (k = Pending.read ∧ (s.heap p).m_active = true)) :
    Inv (s.arm p k) := by
  constructor
  · simpa using h.nodup
  · simpa using h.lt_fresh
  · intro q; simpa using h.active_iff q
  · intro a ha b hb; simpa using h.unique a ha b hb
  · intro q hq
    rw [arm_pending] at hq
    by_cases hqp : q = p
    · rw [if_pos hqp] at hq
      rcases hk with hk | ⟨hk, -⟩ <;> rw [hk] at hq <;> exact absurd hq (by decide)
    · rw [if_neg hqp] at hq
      simpa using h.start_mem q hq
  · intro q hq
    rw [arm_pending] at hq
    by_cases hqp : q = p
    · rw [if_pos hqp] at hq
      rcases hk with hk | ⟨-, hk⟩
      · rw [hk] at hq; exact absurd hq (by decide)
      · subst hqp; simpa using hk
    · rw [if_neg hqp] at hq
      simpa using h.read_active q hq

/-- An active client takes an alias that `find` does not find. -/
theorem inv_rename {s : Server} (h : Inv s) (p : ClientPtr) (n : Str)
    (hact : (s.heap p).m_active = true) (hn : n ≠ []) (hfree : s.find n = none) :
    Inv (Client.rename s p n) := by
  have hfree2 := (find_eq_none_iff s n).1 hfree
  constructor
  · simpa using h.nodup
  · simpa using h.lt_fresh
  · intro q
    rw [rename_alias, rename_active]
    by_cases hq : q = p
    · subst hq; simp [hact, hn]
    · simp only [hq, if_false]; exact h.active_iff q
  · intro a ha b hb
    simp only [rename_m_clients] at ha hb
    rw [rename_alias, rename_alias]
    by_cases hap : a = p <;> by_cases hbp : b = p
    · intro _ _; rw [hap, hbp]
    · simp only [hap, hbp, if_true, if_false]
      intro e _; exact absurd e.symm (hfree2 b hb)
    · simp only [hap, hbp, if_true, if_false]
      intro e _; exact absurd e (hfree2 a ha)
    · simp only [hap, hbp, if_false]
      exact h.unique a ha b hb
  · intro q hq
    simp only [rename_pending] at hq
    simpa using h.start_mem q hq
  · intro q hq
    simp only [rename_pending] at hq
    simpa using h.read_active q hq

/-- The invariant is kept when `m_clients` loses a client that does not wait for its alias. -/
theorem inv_filter {s : Server} (h : Inv s) (p : ClientPtr)
    (hp : (s.heap p).pending ≠ Pending.start) :
    Inv { s with m_clients := s.m_clients.filter (fun c => c ≠ p) } := by
  constructor
  · exact h.nodup.filter _
  · intro q hq
    exact h.lt_fresh q (List.mem_filter.1 hq).1
  · exact h.active_iff
  · intro a ha b hb
    exact h.unique a (List.mem_filter.1 ha).1 b (List.mem_filter.1 hb).1
  · intro q hq
    have hq2 : (s.heap q).pending = Pending.start := hq
    obtain ⟨h1, h2⟩ := h.start_mem q hq2
    refine ⟨?_, h2⟩
    have hne : q ≠ p := by
      intro e; subst e; exact hp hq2
    simp [List.mem_filter, h1, hne]
  · exact h.read_active

theorem inv_remove {s : Server} (h : Inv s) (p : ClientPtr)
    (hp : (s.heap p).pending ≠ Pending.start) : Inv (s.remove p) := by
  unfold remove
  simp only
  split
  · exact (inv_filter h p hp).of_sameCore (sameCore_broadcast _ _ _)
  · exact inv_filter h p hp

end Server

/-! ## `process` keeps the invariant -/

namespace Server

/-- The table `PROCESSORS` as a cascade of tests. -/
theorem lookup_eq (command : Str) :
    PROCESSORS.lookup command =
      if command = "/quit".toList then some process_quit
      else if command = "/list".toList then some process_list
      else if command = "/alias".toList then some process_alias
      else if command = "/private".toList then some process_private
      else none := by
  unfold PROCESSORS
  simp only [List.lookup]
  by_cases h1 : command = "/quit".toList
  · subst h1; rfl
  · by_cases h2 : command = "/list".toList
    · subst h2; rfl
    · by_cases h3 : command = "/alias".toList
      · subst h3; rfl
      · by_cases h4 : command = "/private".toList
        · subst h4; rfl
        · have e1 : (command == "/quit".toList) = false := by simpa using h1
          have e2 : (command == "/list".toList) = false := by simpa using h2
          have e3 : (command == "/alias".toList) = false := by simpa using h3
          have e4 : (command == "/private".toList) = false := by simpa using h4
          simp only [e1, e2, e3, e4, h1, h2, h3, h4, if_false]

theorem sameCore_process_list (s : Server) (c : ClientPtr) (d : Str) :
    SameCore s (s.process_list c d) := sameCore_write _ _ _

theorem sameCore_process_message (s : Server) (c : ClientPtr) (d : Str) :
    SameCore s (s.process_message c d) := sameCore_broadcast _ _ _

theorem sameCore_process_private (s : Server) (c : ClientPtr) (d : Str) :
    SameCore s (s.process_private c d) := by
  unfold process_private
  split
  · split
    · simp only
      split <;> exact sameCore_write _ _ _
    · exact sameCore_write _ _ _
  · exact sameCore_write _ _ _

/-- The clients that `remove` leaves in `m_clients`. -/
theorem remove_m_clients (s : Server) (c : ClientPtr) :
    (s.remove c).m_clients = s.m_clients.filter (fun x => x ≠ c) := by
  unfold remove
  simp only
  split
  · rw [broadcast_m_clients]
  · rfl

theorem remove_frame (s : Server) (c : ClientPtr) (q : ClientPtr) :
    (s.remove c).fresh = s.fresh ∧ ((s.remove c).heap q).m_alias = (s.heap q).m_alias ∧
      ((s.remove c).heap q).m_active = (s.heap q).m_active ∧
      ((s.remove c).heap q).pending = (s.heap q).pending := by
  unfold remove
  simp only
  split
  · simp
  · simp

theorem process_alias_frame (s : Server) (c : ClientPtr) (d : Str) (q : ClientPtr) :
    (s.process_alias c d).m_clients = s.m_clients ∧ (s.process_alias c d).fresh = s.fresh ∧
      ((s.process_alias c d).heap q).m_active = (s.heap q).m_active ∧
      ((s.process_alias c d).heap q).pending = (s.heap q).pending := by
  unfold process_alias
  split
  · split
    · simp only
      split <;> simp
    · simp
  · simp

/-- The method `process` changes neither the counter of objects, nor the flag `m_active` of a
client, nor the handler armed on a client. -/
theorem process_frame (s : Server) (c : ClientPtr) (l : Str) (q : ClientPtr) :
    (s.process c l).fresh = s.fresh ∧
      ((s.process c l).heap q).m_active = (s.heap q).m_active ∧
      ((s.process c l).heap q).pending = (s.heap q).pending := by
  unfold process
  split
  · rename_i command rest _
    split
    · simp only [lookup_eq]
      split_ifs
      · obtain ⟨h1, -, h3, h4⟩ := remove_frame s c q
        exact ⟨h1, h3, h4⟩
      · obtain ⟨-, h1, h2⟩ := sameCore_process_list s c (ws rest)
        exact ⟨h1, (h2 q).2⟩
      · obtain ⟨-, h1, h2, h3⟩ := process_alias_frame s c (ws rest) q
        exact ⟨h1, h2, h3⟩
      · obtain ⟨-, h1, h2⟩ := sameCore_process_private s c (ws rest)
        exact ⟨h1, (h2 q).2⟩
      · simp
    · obtain ⟨-, h1, h2⟩ := sameCore_process_message s c l
      exact ⟨h1, (h2 q).2⟩
  · simp

theorem inv_process_alias {s : Server} (h : Inv s) (c : ClientPtr) (d : Str)
    (hact : (s.heap c).m_active = true) : Inv (s.process_alias c d) := by
  unfold process_alias
  split
  · rename_i new_alias rest hx
    split
    · rename_i hfree
      have hr := inv_rename h c new_alias hact (extract_word hx).1 hfree
      simp only
      split
      · exact hr.of_sameCore (sameCore_broadcast _ _ _)
      · exact hr
    · exact h.of_sameCore (sameCore_write _ _ _)
  · exact h.of_sameCore (sameCore_write _ _ _)

/-- The method `process`, called for an active client whose handler of `start` is not armed,
keeps the invariant. -/
theorem inv_process {s : Server} (h : Inv s) (c : ClientPtr) (l : Str)
    (hact : (s.heap c).m_active = true) (hp : (s.heap c).pending ≠ Pending.start) :
    Inv (s.process c l) := by
  unfold process
  split
  · rename_i command rest _
    split
    · simp only [lookup_eq]
      split_ifs
      · exact inv_remove h c hp
      · exact h.of_sameCore (sameCore_process_list _ _ _)
      · exact inv_process_alias h c _ hact
      · exact h.of_sameCore (sameCore_process_private _ _ _)
      · exact h.of_sameCore (sameCore_write _ _ _)
    · exact h.of_sameCore (sameCore_process_message _ _ _)
  · exact h

/-- The loop of the handler of `read` keeps the invariant, the flag `m_active` and the
handlers. -/
theorem inv_process_lines {s : Server} (h : Inv s) (c : ClientPtr) (ls : List Str)
    (hact : (s.heap c).m_active = true) (hp : (s.heap c).pending ≠ Pending.start) :
    Inv (ls.foldl (fun acc message => acc.process c message) s) ∧
      ∀ q, ((ls.foldl (fun acc message => acc.process c message) s).heap q).m_active =
          (s.heap q).m_active ∧
        ((ls.foldl (fun acc message => acc.process c message) s).heap q).pending =
          (s.heap q).pending := by
  induction ls generalizing s with
  | nil => exact ⟨h, fun _ => ⟨rfl, rfl⟩⟩
  | cons l ls ih =>
    simp only [List.foldl_cons]
    have hf := process_frame s c l
    have hact2 : ((s.process c l).heap c).m_active = true := by rw [(hf c).2.1]; exact hact
    have hp2 : ((s.process c l).heap c).pending ≠ Pending.start := by rw [(hf c).2.2]; exact hp
    obtain ⟨i1, i2⟩ := ih (inv_process h c l hact hp) hact2 hp2
    refine ⟨i1, fun q => ?_⟩
    rw [(i2 q).1, (i2 q).2, (hf q).2.1, (hf q).2.2]
    exact ⟨rfl, rfl⟩

theorem inv_read_lines {s : Server} (h : Inv s) (c : ClientPtr) (ls : List Str)
    (hact : (s.heap c).m_active = true) : Inv (Client.read_lines s c ls) := by
  unfold Client.read_lines
  simp only
  have h0 : Inv (s.arm c Pending.idle) := inv_arm h c _ (Or.inl rfl)
  have hact0 : ((s.arm c Pending.idle).heap c).m_active = true := by simpa using hact
  have hp0 : ((s.arm c Pending.idle).heap c).pending ≠ Pending.start := by
    simp [arm_pending]
  obtain ⟨i1, i2⟩ := inv_process_lines h0 c ls hact0 hp0
  have hact1 := (i2 c).1.trans hact0
  rw [if_pos hact1]
  exact inv_arm i1 c _ (Or.inr ⟨rfl, hact1⟩)

theorem inv_read_error {s : Server} (h : Inv s) (c : ClientPtr) :
    Inv (Client.read_error s c) := by
  unfold Client.read_error process_quit
  exact inv_remove (inv_arm h c _ (Or.inl rfl)) c (by simp [arm_pending])

theorem inv_start_error {s : Server} (h : Inv s) (c : ClientPtr) :
    Inv (Client.start_error s c) := by
  unfold Client.start_error
  exact inv_filter (inv_arm h c _ (Or.inl rfl)) c (by simp [arm_pending])

end Server

/-! ## The handshake, `accept`, and the reachable states -/

namespace Server

/-- A client whose handler of `start` is armed is in `m_clients`, with an empty alias. -/
theorem Inv.start_facts {s : Server} (h : Inv s) {c : ClientPtr}
    (hp : (s.heap c).pending = Pending.start) :
    c ∈ s.m_clients ∧ (s.heap c).m_active = false ∧ (s.heap c).m_alias = [] := by
  obtain ⟨h1, h2⟩ := h.start_mem c hp
  refine ⟨h1, h2, ?_⟩
  by_contra hne
  have := (h.active_iff c).2 hne
  rw [h2] at this
  exact absurd this (by decide)

/-- The state of the server when the handler of `start` accepts the alias. -/
theorem start_line_accepted (s : Server) (c : ClientPtr) (name : Str)
    (hfree : s.find name = none) :
    (Client.start_line s c name).m_clients = s.m_clients ∧
      (Client.start_line s c name).fresh = s.fresh ∧
      ∀ q, ((Client.start_line s c name).heap q).m_alias =
            (if q = c then name else (s.heap q).m_alias) ∧
          ((Client.start_line s c name).heap q).m_active =
            (if q = c then true else (s.heap q).m_active) ∧
          ((Client.start_line s c name).heap q).pending =
            (if q = c then Pending.read else (s.heap q).pending) := by
  unfold Client.start_line
  simp only [arm_find, hfree, ne_eq, not_true_eq_false, if_false]
  refine ⟨by simp [Client.read, process_list], by simp [Client.read, process_list],
    fun q => ?_⟩
  by_cases hq : q = c
  · subst hq
    simp [Client.read, arm_pending, process_list, rename_alias]
  · simp [Client.read, arm_pending, process_list, rename_alias, store_heap, hq]

/-- The state of the server when the handler of `start` refuses the alias. -/
theorem start_line_refused (s : Server) (c : ClientPtr) (name : Str)
    (htaken : s.find name ≠ none) :
    Client.start_line s c name = Client.write (s.arm c Pending.idle) c INVALID_ALIAS := by
  unfold Client.start_line
  simp only [arm_find, htaken, ne_eq, not_false_eq_true, if_true]

theorem inv_start_line {s : Server} (h : Inv s) (c : ClientPtr) (name : Str)
    (hp : (s.heap c).pending = Pending.start) : Inv (Client.start_line s c name) := by
  by_cases hfree : s.find name = none
  · obtain ⟨hc, -, hal⟩ := h.start_facts hp
    have hfree2 := (find_eq_none_iff s name).1 hfree
    have hname : name ≠ [] := by
      intro e
      exact hfree2 c hc (by rw [hal, e])
    obtain ⟨c1, c2, c3⟩ := start_line_accepted s c name hfree
    constructor
    · rw [c1]; exact h.nodup
    · rw [c1, c2]; exact h.lt_fresh
    · intro q
      rw [(c3 q).1, (c3 q).2.1]
      by_cases hq : q = c
      · simp [hq, hname]
      · simp only [hq, if_false]; exact h.active_iff q
    · rw [c1]
      intro a ha b hb
      rw [(c3 a).1, (c3 b).1]
      by_cases hac : a = c <;> by_cases hbc : b = c
      · intro _ _; rw [hac, hbc]
      · simp only [hac, hbc, if_true, if_false]
        intro e _; exact absurd e.symm (hfree2 b hb)
      · simp only [hac, hbc, if_true, if_false]
        intro e _; exact absurd e (hfree2 a ha)
      · simp only [hac, hbc, if_false]
        exact h.unique a ha b hb
    · rw [c1]
      intro q
      rw [(c3 q).2.2, (c3 q).2.1]
      by_cases hq : q = c
      · simp [hq]
      · simp only [hq, if_false]; exact h.start_mem q
    · intro q
      rw [(c3 q).2.2, (c3 q).2.1]
      by_cases hq : q = c
      · simp [hq]
      · simp only [hq, if_false]; exact h.read_active q
  · rw [start_line_refused s c name hfree]
    exact (inv_arm h c _ (Or.inl rfl)).of_sameCore (sameCore_write _ _ _)

theorem inv_accept {s : Server} (h : Inv s) : Inv s.accept := by
  have hnew : s.fresh ∉ s.m_clients := fun hm => Nat.lt_irrefl _ (h.lt_fresh _ hm)
  unfold accept Client.start
  simp only [if_true, Client.new, Bool.false_eq_true, if_false]
  constructor
  · simp only [arm_m_clients]
    exact List.Nodup.append h.nodup (List.nodup_singleton _) (by simpa using hnew)
  · simp only [arm_m_clients, arm_fresh, List.mem_append, List.mem_singleton]
    rintro p (hp | hp)
    · exact Nat.lt_succ_of_lt (h.lt_fresh p hp)
    · rw [hp]; exact Nat.lt_succ_self _
  · intro q
    simp only [arm_active, arm_alias]
    by_cases hq : q = s.fresh
    · simp [hq]
    · simp only [hq, if_false]; exact h.active_iff q
  · simp only [arm_m_clients, arm_alias, List.mem_append, List.mem_singleton]
    intro a ha b hb
    by_cases haf : a = s.fresh
    · simp [haf]
    · by_cases hbf : b = s.fresh
      · simp only [haf, hbf, if_true, if_false]
        intro e hne; exact absurd e hne
      · simp only [haf, hbf, if_false]
        exact h.unique a (ha.resolve_right haf) b (hb.resolve_right hbf)
  · intro q
    simp only [arm_pending, arm_active, arm_m_clients, List.mem_append, List.mem_singleton]
    by_cases hq : q = s.fresh
    · simp [hq]
    · simp only [hq, if_false]
      intro hs
      obtain ⟨h1, h2⟩ := h.start_mem q hs
      exact ⟨Or.inl h1, h2⟩
  · intro q
    simp only [arm_pending, arm_active]
    by_cases hq : q = s.fresh
    · simp [hq]
    · simp only [hq, if_false]; exact h.read_active q

theorem inv_step {s : Server} (h : Inv s) (e : Event) : Inv (s.step e) := by
  cases e with
  | accept => exact inv_accept h
  | recv p lines =>
    simp only [step]
    split
    · rename_i hp
      cases lines with
      | nil => exact h
      | cons name rest =>
        simp only
        have h1 := inv_start_line h p name hp
        split
        · rename_i hr
          exact inv_read_lines h1 p _ (h1.read_active p hr)
        · exact h1
    · rename_i hp
      exact inv_read_lines h p lines (h.read_active p hp)
    · exact h
  | close p =>
    simp only [step]
    split
    · exact inv_start_error h p
    · exact inv_read_error h p
    · exact h

/-- Every state reached from the empty server satisfies the invariant. -/
theorem inv_run (events : List Event) : Inv (run events) := by
  unfold run
  suffices H : ∀ (s : Server), Inv s → Inv (events.foldl step s) from H init inv_init
  induction events with
  | nil => intro s hs; exact hs
  | cons e es ih => intro s hs; exact ih (s.step e) (inv_step hs e)

end Server

/-! ## Lines and commands -/

namespace Server

/-- A line whose first character after the leading white space is not `/` is a chat
message. -/
theorem process_plain (s : Server) (A : ClientPtr) (sp : Str) (c : Char) (r : Str)
    (hsp : ∀ x ∈ sp, isspace x = true) (hc : isspace c = false) (hslash : c ≠ '/') :
    s.process A (sp ++ c :: r) = s.process_message A (sp ++ c :: r) := by
  have hws : ws (sp ++ c :: r) = c :: r := by
    rw [ws_of_blank sp hsp]; exact ws_cons_of_not_space c r hc
  unfold process extract
  rw [hws]
  simp [List.takeWhile_cons, hc, hslash]

/-- A line made of a command word that begins with `/`, a space, and a payload: the processor
of the table is called on the payload without its leading white space. -/
theorem process_command (s : Server) (c : ClientPtr) (cmd arg : Str)
    (hne : cmd ≠ []) (hcmd : ∀ x ∈ cmd, isspace x = false) (hhead : cmd.head? = some '/') :
    s.process c (cmd ++ ' ' :: arg) =
      match PROCESSORS.lookup cmd with
      | some processor => processor s c (ws arg)
      | none => Client.write s c INVALID_COMMAND := by
  have hx : extract (cmd ++ ' ' :: arg) = some (cmd, ' ' :: arg) := by
    have := extract_token [] cmd (' ' :: arg) (by simp) hne hcmd (by simp; decide)
    simpa using this
  have hw : ws (' ' :: arg) = ws arg := ws_of_blank [' '] (by simp; decide) arg
  unfold process
  rw [hx]
  simp only [hhead, if_true, hw]

theorem process_private_line (s : Server) (c : ClientPtr) (arg : Str) :
    s.process c ("/private ".toList ++ arg) = s.process_private c (ws arg) := by
  have h := process_command s c "/private".toList arg (by decide) (by decide) (by decide)
  have e : "/private ".toList ++ arg = "/private".toList ++ ' ' :: arg := rfl
  rw [e, h, lookup_eq]
  rfl

theorem process_alias_line (s : Server) (c : ClientPtr) (arg : Str) :
    s.process c ("/alias ".toList ++ arg) = s.process_alias c (ws arg) := by
  have h := process_command s c "/alias".toList arg (by decide) (by decide) (by decide)
  have e : "/alias ".toList ++ arg = "/alias".toList ++ ' ' :: arg := rfl
  rw [e, h, lookup_eq]
  rfl

/-- The payload that begins with the word `X`. -/
theorem extract_payload (X tail : Str) (hne : X ≠ []) (hX : ∀ c ∈ X, isspace c = false)
    (htail : ∀ c ∈ tail.head?, isspace c = true) :
    ws (X ++ tail) = X ++ tail ∧ extract (X ++ tail) = some (X, tail) := by
  obtain ⟨x, X1, rfl⟩ := List.exists_cons_of_ne_nil hne
  refine ⟨ws_cons_of_not_space x _ (hX x (List.mem_cons_self _ _)), ?_⟩
  have := extract_token [] (x :: X1) tail (by simp) hne hX htail
  simpa using this

end Server

/-! ## C1: the aliases of the active clients are distinct -/

namespace Server

/-- C1: in every state reached from the empty server by a sequence of accept, inbound-line and
transport-close events, two distinct clients of `m_clients` that have completed the handshake
(`m_active` is true) hold different aliases. -/
theorem C1_alias_unique (events : List Event) (p q : ClientPtr)
    (hp : p ∈ (run events).m_clients) (hq : q ∈ (run events).m_clients) (hne : p ≠ q)
    (hpa : ((run events).heap p).m_active = true)
    (_hqa : ((run events).heap q).m_active = true) :
    ((run events).heap p).m_alias ≠ ((run events).heap q).m_alias := by
  intro e
  have hi := inv_run events
  exact hne (hi.unique p hp q hq e ((hi.active_iff p).1 hpa))

/-- C1 at the scenario of two clients, extended by a client that is refused the alias `bob`
and by a rename of the second client. -/
theorem C1_alias_unique_witness :
    ((run [Event.accept, Event.accept, Event.recv 0 ["alice".toList],
        Event.recv 1 ["bob".toList], Event.accept, Event.recv 2 ["bob".toList],
        Event.recv 1 ["/alias carol".toList]]).heap 0).m_alias ≠
      ((run [Event.accept, Event.accept, Event.recv 0 ["alice".toList],
        Event.recv 1 ["bob".toList], Event.accept, Event.recv 2 ["bob".toList],
        Event.recv 1 ["/alias carol".toList]]).heap 1).m_alias :=
  C1_alias_unique _ 0 1 (by decide) (by decide) (by decide) (by decide) (by decide)

end Server

/-! ## C2, C3: the chat lines -/

namespace Server

/-- C2 does not hold as stated: in the scenario of two clients, the active client `alice` of
`m_clients` sends the line `hi` and receives that chat line herself. -/
theorem C2_sender_receives_its_line :
    0 ∈ two_clients.m_clients ∧ (two_clients.heap 0).m_active = true ∧
      ((two_clients.process 0 "hi".toList).heap 0).sent =
        (two_clients.heap 0).sent ++ ["<b>alice</b> : hi".toList] ∧
      ((two_clients.process 0 "hi".toList).heap 0).sent ≠ (two_clients.heap 0).sent := by
  decide

/-- C2, amended: in a state where no client is twice in `m_clients`, when a client `A` sends a
line that is not blank and whose first word does not begin with `/`, every client of
`m_clients`, `A` included, receives exactly one chat line, and a client out of `m_clients`
receives nothing. -/
theorem C2_chat_recipients (s : Server) (A : ClientPtr) (sp : Str) (c : Char) (r : Str)
    (hnd : s.m_clients.Nodup) (hsp : ∀ x ∈ sp, isspace x = true) (hc : isspace c = false)
    (hslash : c ≠ '/') :
    (∀ q ∈ s.m_clients, ((s.process A (sp ++ c :: r)).heap q).sent =
        (s.heap q).sent ++
          ["<b>".toList ++ (s.heap A).m_alias ++ "</b> : ".toList ++ (sp ++ c :: r)]) ∧
      (A ∈ s.m_clients → ((s.process A (sp ++ c :: r)).heap A).sent =
        (s.heap A).sent ++
          ["<b>".toList ++ (s.heap A).m_alias ++ "</b> : ".toList ++ (sp ++ c :: r)]) ∧
      (∀ q, q ∉ s.m_clients → ((s.process A (sp ++ c :: r)).heap q).sent = (s.heap q).sent) := by
  rw [process_plain s A sp c r hsp hc hslash]
  unfold process_message
  have key : ∀ q ∈ s.m_clients,
      ((s.broadcast ("<b>".toList ++ (s.heap A).m_alias ++ "</b> : ".toList ++ (sp ++ c :: r))
        none).heap q).sent =
        (s.heap q).sent ++
          ["<b>".toList ++ (s.heap A).m_alias ++ "</b> : ".toList ++ (sp ++ c :: r)] := by
    intro q hq
    rw [broadcast_sent _ _ _ _ hnd]
    simp [hq]
  refine ⟨key, key A, ?_⟩
  intro q hq
  rw [broadcast_sent _ _ _ _ hnd]
  simp [hq]

/-- C2, amended, at the scenario of two clients: `alice` sends `hi`. -/
theorem C2_chat_recipients_witness :
    (∀ q ∈ two_clients.m_clients, ((two_clients.process 0 ([] ++ 'h' :: "i".toList)).heap q).sent =
        (two_clients.heap q).sent ++
          ["<b>".toList ++ (two_clients.heap 0).m_alias ++ "</b> : ".toList ++
            ([] ++ 'h' :: "i".toList)]) ∧
      (0 ∈ two_clients.m_clients → ((two_clients.process 0 ([] ++ 'h' :: "i".toList)).heap 0).sent =
        (two_clients.heap 0).sent ++
          ["<b>".toList ++ (two_clients.heap 0).m_alias ++ "</b> : ".toList ++
            ([] ++ 'h' :: "i".toList)]) ∧
      (∀ q, q ∉ two_clients.m_clients →
        ((two_clients.process 0 ([] ++ 'h' :: "i".toList)).heap q).sent =
          (two_clients.heap q).sent) :=
  C2_chat_recipients two_clients 0 [] 'h' "i".toList (by decide) (by simp) (by decide)
    (by decide)

/-- C3 does not hold as stated: in the scenario of two clients, when `alice` sends the line
`hi`, the text relayed to `bob` is `<b>alice</b> : hi`, not `alice: hi`. -/
theorem C3_relayed_text_is_not_alias_colon_line :
    (two_clients.heap 0).m_alias = "alice".toList ∧
      ((two_clients.process 0 "hi".toList).heap 1).sent =
        (two_clients.heap 1).sent ++ ["<b>alice</b> : hi".toList] ∧
      ((two_clients.process 0 "hi".toList).heap 1).sent ≠
        (two_clients.heap 1).sent ++ ["alice".toList ++ ": ".toList ++ "hi".toList] := by
  decide

/-- C3, amended: for a client with alias `a` and a line that is not blank and whose first
word does not begin with `/`, the text relayed is `<b>`, then `a`, then `</b> : `, then the
line: the line is broadcast with that text, and each client receives only copies of it. -/
theorem C3_chat_line_text (s : Server) (A : ClientPtr) (a sp : Str) (c : Char) (r : Str)
    (ha : (s.heap A).m_alias = a) (hsp : ∀ x ∈ sp, isspace x = true)
    (hc : isspace c = false) (hslash : c ≠ '/') :
    s.process A (sp ++ c :: r) =
        s.broadcast ("<b>".toList ++ a ++ "</b> : ".toList ++ (sp ++ c :: r)) none ∧
      ∀ q, ∃ k, ((s.process A (sp ++ c :: r)).heap q).sent =
        (s.heap q).sent ++
          List.replicate k ("<b>".toList ++ a ++ "</b> : ".toList ++ (sp ++ c :: r)) := by
  rw [process_plain s A sp c r hsp hc hslash]
  unfold process_message
  rw [ha]
  refine ⟨rfl, fun q => ?_⟩
  rw [broadcast_eq_bcast, bcast_sent]
  exact ⟨_, rfl⟩

/-- C3, amended, at the scenario of two clients: `alice` sends `hi`. -/
theorem C3_chat_line_text_witness :
    two_clients.process 0 ([] ++ 'h' :: "i".toList) =
        two_clients.broadcast
          ("<b>".toList ++ "alice".toList ++ "</b> : ".toList ++ ([] ++ 'h' :: "i".toList))
          none ∧
      ∀ q, ∃ k, ((two_clients.process 0 ([] ++ 'h' :: "i".toList)).heap q).sent =
        (two_clients.heap q).sent ++
          List.replicate k
            ("<b>".toList ++ "alice".toList ++ "</b> : ".toList ++ ([] ++ 'h' :: "i".toList)) :=
  C3_chat_line_text two_clients 0 "alice".toList [] 'h' "i".toList (by decide) (by simp)
    (by decide) (by decide)

end Server

/-! ## C4, C5: the handshake -/

namespace Server

theorem intercalate_cons_cons (sep x y : Str) (l : List Str) :
    sep.intercalate (x :: y :: l) = x ++ (sep ++ sep.intercalate (y :: l)) := by
  simp [List.intercalate, List.intersperse]

theorem list_fold_false (g : ClientPtr → Str) (l : List ClientPtr) (acc : Str) :
    l.foldl (fun (st : Str × Bool) c => ((if !st.2 then st.1 ++ " ".toList else st.1) ++ g c, false))
        (acc, false) =
      (acc ++ (l.map (fun c => ' ' :: g c)).flatten, false) := by
  induction l generalizing acc with
  | nil => simp
  | cons c l ih =>
    simp only [List.foldl_cons, Bool.not_false, if_true, ih, List.map_cons, List.flatten_cons]
    have : " ".toList = [' '] := rfl
    simp [this]

theorem intercalate_map (g : ClientPtr → Str) (c : ClientPtr) (l : List ClientPtr) :
    [' '].intercalate ((c :: l).map g) = g c ++ (l.map (fun c => ' ' :: g c)).flatten := by
  induction l generalizing c with
  | nil => simp [List.intercalate, List.intersperse]
  | cons d l ih =>
    rw [List.map_cons, List.map_cons, intercalate_cons_cons, ← List.map_cons, ih d]
    simp

theorem list_loop_eq (s : Server) :
    (list_loop s).1 = [' '].intercalate (s.m_clients.map (fun c => (s.heap c).m_alias)) := by
  unfold list_loop
  cases h : s.m_clients with
  | nil => simp [List.intercalate, List.intersperse]
  | cons c l =>
    rw [intercalate_map]
    simp only [List.foldl_cons, Bool.not_true, Bool.false_eq_true, if_false, List.nil_append]
    rw [list_fold_false]

theorem start_line_accepted_sent (s : Server) (S : ClientPtr) (a : Str)
    (hnd : s.m_clients.Nodup) (hfree : s.find a = none) (q : ClientPtr) :
    ((Client.start_line s S a).heap q).sent =
      if q = S then
        (s.heap S).sent ++ ["#alias ".toList ++ a,
          "#list ".toList ++ [' '].intercalate
            (s.m_clients.map (fun c => if c = S then a else (s.heap c).m_alias))]
      else if q ∈ s.m_clients then (s.heap q).sent ++ ["#connected ".toList ++ a]
      else (s.heap q).sent := by
  have hroster : ∀ t : Server, t.m_clients = s.m_clients →
      (∀ c, (t.heap c).m_alias = if c = S then a else (s.heap c).m_alias) →
      (list_loop t).1 = [' '].intercalate
        (s.m_clients.map (fun c => if c = S then a else (s.heap c).m_alias)) := by
    intro t h1 h2
    rw [list_loop_eq, h1]
    congr 1
    exact List.map_congr_left (fun c _ => h2 c)
  unfold Client.start_line
  simp only [arm_find, hfree, ne_eq, not_true_eq_false, if_false]
  simp only [Client.read, arm_sent]
  rw [broadcast_sent]
  · simp only [process_list, write_m_clients, rename_m_clients, store_m_clients, arm_m_clients,
      write_sent, rename_sent]
    rw [hroster]
    · by_cases hq : q = S
      · subst hq; simp
      · simp [hq, store_heap]
    · rfl
    · intro c
      rw [rename_alias]
      by_cases hc : c = S
      · simp [hc]
      · simp [hc, store_heap]
  · simpa [process_list] using hnd

/-- C4: in a state where no client is twice in `m_clients`, let `S` be a client of `m_clients`
whose handler of `start` is armed (a session in the handshake) and `a` a line that `find` does
not find.  After the line is processed `S` is active with alias `a`; `S` has received exactly
the two lines `#alias a` and `#list <roster>`, in that order, the roster being the aliases of
the clients of `m_clients` after the registration, joined by spaces, so that `a` is one of
them; every other client of `m_clients` has received exactly the line `#connected a`; and `S`
has not received `#connected a`. -/
theorem C4_handshake_accepted (s : Server) (S : ClientPtr) (a : Str)
    (hnd : s.m_clients.Nodup) (hS : S ∈ s.m_clients)
    (hp : (s.heap S).pending = Pending.start) (hfree : s.find a = none) :
    ((s.step (Event.recv S [a])).heap S).m_active = true ∧
      ((s.step (Event.recv S [a])).heap S).m_alias = a ∧
      (s.step (Event.recv S [a])).m_clients = s.m_clients ∧
      ((s.step (Event.recv S [a])).heap S).sent =
        (s.heap S).sent ++ ["#alias ".toList ++ a,
          "#list ".toList ++ [' '].intercalate
            ((s.step (Event.recv S [a])).m_clients.map
              (fun c => ((s.step (Event.recv S [a])).heap c).m_alias))] ∧
      a ∈ (s.step (Event.recv S [a])).m_clients.map
        (fun c => ((s.step (Event.recv S [a])).heap c).m_alias) ∧
      (∀ q ∈ s.m_clients, q ≠ S →
        ((s.step (Event.recv S [a])).heap q).sent =
          (s.heap q).sent ++ ["#connected ".toList ++ a]) ∧
      "#connected ".toList ++ a ∉ ["#alias ".toList ++ a,
          "#list ".toList ++ [' '].intercalate
            ((s.step (Event.recv S [a])).m_clients.map
              (fun c => ((s.step (Event.recv S [a])).heap c).m_alias))] := by
  have hstep : s.step (Event.recv S [a]) = Client.start_line s S a := by
    simp only [step, hp]
  rw [hstep]
  obtain ⟨c1, -, c3⟩ := start_line_accepted s S a hfree
  have hmap : (Client.start_line s S a).m_clients.map
      (fun c => ((Client.start_line s S a).heap c).m_alias) =
      s.m_clients.map (fun c => if c = S then a else (s.heap c).m_alias) := by
    rw [c1]
    exact List.map_congr_left (fun c _ => (c3 c).1)
  rw [hmap]
  refine ⟨by simp [(c3 S).2.1], by simp [(c3 S).1], c1, ?_, ?_, ?_, ?_⟩
  · rw [start_line_accepted_sent s S a hnd hfree]
    simp
  · exact List.mem_map.2 ⟨S, hS, by simp⟩
  · intro q hq hne
    rw [start_line_accepted_sent s S a hnd hfree]
    simp [hne, hq]
  · simp

/-- C4 when two clients are accepted and the first is `alice`: the second takes `bob`. -/
theorem C4_handshake_accepted_witness :
    (((run [Event.accept, Event.accept, Event.recv 0 ["alice".toList]]).step
        (Event.recv 1 ["bob".toList])).heap 1).m_active = true ∧
    (((run [Event.accept, Event.accept, Event.recv 0 ["alice".toList]]).step
        (Event.recv 1 ["bob".toList])).heap 1).sent =
      ["#connected alice".toList, "#alias bob".toList, "#list alice bob".toList] ∧
    (∀ q ∈ (run [Event.accept, Event.accept, Event.recv 0 ["alice".toList]]).m_clients,
      q ≠ 1 →
      (((run [Event.accept, Event.accept, Event.recv 0 ["alice".toList]]).step
          (Event.recv 1 ["bob".toList])).heap q).sent =
        ((run [Event.accept, Event.accept, Event.recv 0 ["alice".toList]]).heap q).sent ++
          ["#connected ".toList ++ "bob".toList]) :=
  ⟨(C4_handshake_accepted
      (run [Event.accept, Event.accept, Event.recv 0 ["alice".toList]]) 1 "bob".toList
      (by decide) (by decide) (by decide) (by decide)).1,
    by decide,
    (C4_handshake_accepted
      (run [Event.accept, Event.accept, Event.recv 0 ["alice".toList]]) 1 "bob".toList
      (by decide) (by decide) (by decide) (by decide)).2.2.2.2.2.1⟩

/-- C5, the code at the scenario of the claim: the first client holds `bob`, the second
proposes `bob`, then `bobby`.  The second client receives `#error invalid_alias` and no handler
is armed on its socket any more, so that the line `bobby` is never read: the client stays
without alias, not active, and the first client never receives `#connected bobby`. -/
theorem C5_refused_alias_is_never_retried :
    ((run [Event.accept, Event.recv 0 ["bob".toList], Event.accept,
        Event.recv 1 ["bob".toList]]).heap 1).sent = [INVALID_ALIAS] ∧
      ((run [Event.accept, Event.recv 0 ["bob".toList], Event.accept,
        Event.recv 1 ["bob".toList]]).heap 1).pending = Pending.idle ∧
      ((run [Event.accept, Event.recv 0 ["bob".toList], Event.accept,
        Event.recv 1 ["bob".toList], Event.recv 1 ["bobby".toList]]).heap 1).m_active = false ∧
      ((run [Event.accept, Event.recv 0 ["bob".toList], Event.accept,
        Event.recv 1 ["bob".toList], Event.recv 1 ["bobby".toList]]).heap 1).m_alias = [] ∧
      ((run [Event.accept, Event.recv 0 ["bob".toList], Event.accept,
        Event.recv 1 ["bob".toList], Event.recv 1 ["bobby".toList]]).heap 1).sent =
          [INVALID_ALIAS] ∧
      ((run [Event.accept, Event.recv 0 ["bob".toList], Event.accept,
        Event.recv 1 ["bob".toList], Event.recv 1 ["bobby".toList]]).heap 0).sent =
          ["#alias bob".toList, "#list bob".toList] := by
  decide

end Server

/-! ## C6, C7, C8: the private messages -/

namespace Server

/-- The text read by `getline` after the white space, for a text that begins with a character
that is not white space and holds no line feed: the text itself. -/
theorem getline_ws_of_clean (c : Char) (r : Str) (hc : isspace c = false)
    (hnl : '\n' ∉ c :: r) : getline (ws (c :: r)) = c :: r := by
  rw [ws_cons_of_not_space c r hc]
  unfold getline
  rw [List.takeWhile_eq_self_iff]
  intro x hx
  have : x ≠ '\n' := fun e => hnl (e ▸ hx)
  simpa using this

/-- The method `process_private` when the recipient is found and the content is not empty. -/
theorem process_private_delivered (s : Server) (S R : ClientPtr) (X tail : Str)
    (hne : X ≠ []) (hX : ∀ c ∈ X, isspace c = false)
    (htail : ∀ c ∈ tail.head?, isspace c = true) (hfind : s.find X = some R)
    (hcontent : getline (ws tail) ≠ []) :
    s.process S ("/private ".toList ++ (X ++ tail)) =
      Client.write s R
        ("#private ".toList ++ (s.heap S).m_alias ++ " ".toList ++ getline (ws tail)) := by
  obtain ⟨h1, h2⟩ := extract_payload X tail hne hX htail
  rw [process_private_line, h1]
  unfold process_private
  rw [h2]
  simp only [hfind, hcontent, ne_eq, not_false_eq_true, if_true]

/-- C6 does not hold as stated, in the scenario of two clients.  With the text ` hi`, which is
not empty, `alice` sends `/private bob  hi` and `bob` does not receive `#private alice  hi`:
he receives `#private alice hi`, the text without its leading white space.  With the text made
of one space, `bob` receives nothing and `alice` receives `#error missing_argument`. -/
theorem C6_text_loses_leading_space :
    ((two_clients.process 0
        ("/private ".toList ++ "bob".toList ++ " ".toList ++ " hi".toList)).heap 1).sent ≠
      (two_clients.heap 1).sent ++
        ["#private ".toList ++ "alice".toList ++ " ".toList ++ " hi".toList] ∧
    ((two_clients.process 0
        ("/private ".toList ++ "bob".toList ++ " ".toList ++ " hi".toList)).heap 1).sent =
      (two_clients.heap 1).sent ++ ["#private alice hi".toList] ∧
    ((two_clients.process 0
        ("/private ".toList ++ "bob".toList ++ " ".toList ++ " ".toList)).heap 1).sent =
      (two_clients.heap 1).sent ∧
    ((two_clients.process 0
        ("/private ".toList ++ "bob".toList ++ " ".toList ++ " ".toList)).heap 0).sent =
      (two_clients.heap 0).sent ++ [MISSING_ARGUMENT] := by
  decide

/-- C6, amended: in a state that satisfies the invariant of the reachable states, let `S` be a
sender with alias `a`, `X` a word that is the alias of the client `R` of `m_clients`, and `t` a
text whose part `t'` after the leading white space (up to a line feed) is not empty.
Processing the line `/private X t` from `S` makes `R` receive exactly one line
`#private a t'`, makes no other client receive anything, and changes neither `m_clients` nor
any alias.  When `t` begins with a character that is not white space and holds no line feed,
`t'` is `t`. -/
theorem C6_private_delivery (s : Server) (S R : ClientPtr) (X t : Str) (hinv : Inv s)
    (hne : X ≠ []) (hX : ∀ c ∈ X, isspace c = false)
    (hR : R ∈ s.m_clients) (hRX : (s.heap R).m_alias = X)
    (ht : getline (ws t) ≠ []) :
    ((s.process S ("/private ".toList ++ X ++ " ".toList ++ t)).heap R).sent =
        (s.heap R).sent ++
          ["#private ".toList ++ (s.heap S).m_alias ++ " ".toList ++ getline (ws t)] ∧
      (∀ q, q ≠ R →
        (s.process S ("/private ".toList ++ X ++ " ".toList ++ t)).heap q = s.heap q) ∧
      (s.process S ("/private ".toList ++ X ++ " ".toList ++ t)).m_clients = s.m_clients ∧
      (∀ q, ((s.process S ("/private ".toList ++ X ++ " ".toList ++ t)).heap q).m_alias =
        (s.heap q).m_alias) ∧
      (∀ c r, t = c :: r → isspace c = false → '\n' ∉ t → getline (ws t) = t) := by
  have hfind : s.find X = some R := by
    apply find_of_unique hR hRX
    intro q hq hqX
    exact hinv.unique q hq R hR (hqX.trans hRX.symm) (by rw [hqX]; exact hne)
  have hws : ws (' ' :: t) = ws t := ws_of_blank [' '] (by simp; decide) t
  have hline : "/private ".toList ++ X ++ " ".toList ++ t =
      "/private ".toList ++ (X ++ ' ' :: t) := by
    have : " ".toList = [' '] := rfl
    simp [this]
  have hproc := process_private_delivered s S R X (' ' :: t) hne hX (by simp; decide) hfind
    (by rw [hws]; exact ht)
  rw [hws] at hproc
  rw [hline, hproc]
  refine ⟨by simp, fun q hq => write_heap_of_ne _ _ _ hq, rfl, fun q => by simp, ?_⟩
  intro c r e hc hnl
  subst e
  exact getline_ws_of_clean c r hc hnl

/-- C6, amended, at the scenario of the claim: `alice` sends `/private bob hi`. -/
theorem C6_private_delivery_witness :
    ((two_clients.process 0
        ("/private ".toList ++ "bob".toList ++ " ".toList ++ "hi".toList)).heap 1).sent =
        (two_clients.heap 1).sent ++
          ["#private ".toList ++ (two_clients.heap 0).m_alias ++ " ".toList ++
            getline (ws "hi".toList)] ∧
      (∀ q, q ≠ 1 →
        (two_clients.process 0
          ("/private ".toList ++ "bob".toList ++ " ".toList ++ "hi".toList)).heap q =
        two_clients.heap q) :=
  ⟨(C6_private_delivery two_clients 0 1 "bob".toList "hi".toList (inv_run _) (by decide)
      (by decide) (by decide) (by decide) (by decide)).1,
    (C6_private_delivery two_clients 0 1 "bob".toList "hi".toList (inv_run _) (by decide)
      (by decide) (by decide) (by decide) (by decide)).2.1⟩

/-- C7: for every state, every sender `S` and every word `X` that is the alias of no client of
`m_clients`, processing the line `/private X` followed by anything (nothing, or white space
and a text) makes `S` receive exactly `#error invalid_recipient`, and no other client receives
anything. -/
theorem C7_unknown_recipient (s : Server) (S : ClientPtr) (X tail : Str)
    (hne : X ≠ []) (hX : ∀ c ∈ X, isspace c = false)
    (htail : ∀ c ∈ tail.head?, isspace c = true)
    (hfree : ∀ q ∈ s.m_clients, (s.heap q).m_alias ≠ X) :
    ((s.process S ("/private ".toList ++ (X ++ tail))).heap S).sent =
        (s.heap S).sent ++ [INVALID_RECIPIENT] ∧
      (∀ q, q ≠ S → (s.process S ("/private ".toList ++ (X ++ tail))).heap q = s.heap q) ∧
      (s.process S ("/private ".toList ++ (X ++ tail))).m_clients = s.m_clients := by
  obtain ⟨h1, h2⟩ := extract_payload X tail hne hX htail
  have hfind : s.find X = none := (find_eq_none_iff s X).2 hfree
  have hproc : s.process S ("/private ".toList ++ (X ++ tail)) =
      Client.write s S INVALID_RECIPIENT := by
    rw [process_private_line, h1]
    unfold process_private
    rw [h2]
    simp only [hfind]
  rw [hproc]
  exact ⟨by simp, fun q hq => write_heap_of_ne _ _ _ hq, rfl⟩

/-- C7 at the scenario of two clients: `alice` sends `/private carol hi`. -/
theorem C7_unknown_recipient_witness :
    ((two_clients.process 0 ("/private ".toList ++ ("carol".toList ++ " hi".toList))).heap 0).sent =
        (two_clients.heap 0).sent ++ [INVALID_RECIPIENT] ∧
      (∀ q, q ≠ 0 →
        (two_clients.process 0 ("/private ".toList ++ ("carol".toList ++ " hi".toList))).heap q =
          two_clients.heap q) ∧
      (two_clients.process 0 ("/private ".toList ++ ("carol".toList ++ " hi".toList))).m_clients =
        two_clients.m_clients :=
  C7_unknown_recipient two_clients 0 "carol".toList " hi".toList (by decide) (by decide)
    (by decide) (by decide)

/-- C8: for every state, every sender `S` and every word `X` that is the alias of a client of
`m_clients`, processing the line `/private X` followed by nothing or by white space only makes
`S` receive exactly `#error missing_argument`, and nothing is delivered to the recipient or to
any other client. -/
theorem C8_empty_private_text (s : Server) (S R : ClientPtr) (X w : Str)
    (hne : X ≠ []) (hX : ∀ c ∈ X, isspace c = false)
    (hw : ∀ c ∈ w, isspace c = true)
    (hR : R ∈ s.m_clients) (hRX : (s.heap R).m_alias = X) :
    ((s.process S ("/private ".toList ++ (X ++ w))).heap S).sent =
        (s.heap S).sent ++ [MISSING_ARGUMENT] ∧
      (∀ q, q ≠ S → (s.process S ("/private ".toList ++ (X ++ w))).heap q = s.heap q) ∧
      (s.process S ("/private ".toList ++ (X ++ w))).m_clients = s.m_clients := by
  have htail : ∀ c ∈ w.head?, isspace c = true := by
    intro c hc
    exact hw c (List.mem_of_mem_head? hc)
  obtain ⟨h1, h2⟩ := extract_payload X w hne hX htail
  obtain ⟨r, hfind⟩ := find_of_mem hR hRX
  have hcontent : getline (ws w) = [] := by rw [ws_blank w hw]; rfl
  have hproc : s.process S ("/private ".toList ++ (X ++ w)) =
      Client.write s S MISSING_ARGUMENT := by
    rw [process_private_line, h1]
    unfold process_private
    rw [h2]
    simp only [hfind, hcontent, ne_eq, not_true_eq_false, if_false]
  rw [hproc]
  exact ⟨by simp, fun q hq => write_heap_of_ne _ _ _ hq, rfl⟩

/-- C8 at the scenario of two clients: `alice` sends `/private bob` and two spaces. -/
theorem C8_empty_private_text_witness :
    ((two_clients.process 0 ("/private ".toList ++ ("bob".toList ++ "  ".toList))).heap 0).sent =
        (two_clients.heap 0).sent ++ [MISSING_ARGUMENT] ∧
      (∀ q, q ≠ 0 →
        (two_clients.process 0 ("/private ".toList ++ ("bob".toList ++ "  ".toList))).heap q =
          two_clients.heap q) ∧
      (two_clients.process 0 ("/private ".toList ++ ("bob".toList ++ "  ".toList))).m_clients =
        two_clients.m_clients :=
  C8_empty_private_text two_clients 0 1 "bob".toList "  ".toList (by decide) (by decide)
    (by decide) (by decide) (by decide)

end Server

/-! ## C9, C10: the renames -/

namespace Server

/-- The line `/alias N` for a word `N`: the answer depends on `find N`. -/
theorem process_alias_word (s : Server) (S : ClientPtr) (N : Str)
    (hne : N ≠ []) (hN : ∀ c ∈ N, isspace c = false) :
    s.process S ("/alias ".toList ++ N) =
      if s.find N = none then
        if (s.heap S).m_alias ≠ [] then
          (Client.rename s S N).broadcast
            ("#renamed ".toList ++ (s.heap S).m_alias ++ " ".toList ++ N) none
        else Client.rename s S N
      else Client.write s S INVALID_ALIAS := by
  obtain ⟨h1, h2⟩ := extract_payload N [] hne hN (by simp)
  simp only [List.append_nil] at h1 h2
  rw [process_alias_line, h1]
  unfold process_alias
  rw [h2]

/-- The state after a rename that succeeds, in a state that satisfies the invariant. -/
theorem rename_succeeds (s : Server) (S : ClientPtr) (new : Str) (hinv : Inv s)
    (hS : S ∈ s.m_clients) (hact : (s.heap S).m_active = true)
    (hne : new ≠ []) (hN : ∀ c ∈ new, isspace c = false) (hfree : s.find new = none) :
    (s.process S ("/alias ".toList ++ new)).find (s.heap S).m_alias = none ∧
      (s.process S ("/alias ".toList ++ new)).find new = some S ∧
      ((s.process S ("/alias ".toList ++ new)).heap S).m_alias = new ∧
      ((s.process S ("/alias ".toList ++ new)).heap S).sent =
        (s.heap S).sent ++ ["#alias ".toList ++ new,
          "#renamed ".toList ++ (s.heap S).m_alias ++ " ".toList ++ new] ∧
      (∀ q ∈ s.m_clients, q ≠ S →
        ((s.process S ("/alias ".toList ++ new)).heap q).sent =
          (s.heap q).sent ++ ["#renamed ".toList ++ (s.heap S).m_alias ++ " ".toList ++ new]) ∧
      (s.process S ("/alias ".toList ++ new)).m_clients = s.m_clients := by
  have hold : (s.heap S).m_alias ≠ [] := (hinv.active_iff S).1 hact
  have hfree2 := (find_eq_none_iff s new).1 hfree
  rw [process_alias_word s S new hne hN]
  simp only [hfree, hold, ne_eq, not_false_eq_true, if_true]
  have hal : ∀ q, (((Client.rename s S new).broadcast
      ("#renamed ".toList ++ (s.heap S).m_alias ++ " ".toList ++ new) none).heap q).m_alias =
      if q = S then new else (s.heap q).m_alias := by
    intro q
    rw [broadcast_alias, rename_alias]
  have hnd : (Client.rename s S new).m_clients.Nodup := hinv.nodup
  refine ⟨?_, ?_, ?_, ?_, ?_, ?_⟩
  · rw [find_eq_none_iff]
    intro q hq
    simp only [broadcast_m_clients, rename_m_clients] at hq
    rw [hal]
    by_cases hqS : q = S
    · simp only [hqS, if_true]
      exact fun e => hfree2 S hS e.symm
    · simp only [hqS, if_false]
      exact fun e => hqS (hinv.unique S hS q hq e.symm hold).symm
  · apply find_of_unique (r := S)
    · simpa using hS
    · rw [hal]; simp
    · intro q hq
      simp only [broadcast_m_clients, rename_m_clients] at hq
      rw [hal]
      by_cases hqS : q = S
      · exact fun _ => hqS
      · simp only [hqS, if_false]
        exact fun e => absurd e (hfree2 q hq)
  · rw [hal]; simp
  · rw [broadcast_sent _ _ _ _ hnd, rename_sent]
    simp [hS]
  · intro q hq hqS
    rw [broadcast_sent _ _ _ _ hnd, rename_sent]
    simp [hq, hqS]
  · simp

/-- C9: in every reachable state, for every active client `S` of `m_clients`, with alias
`old`, and every word `new` that `find` does not find, after the line `/alias new` from `S` is
processed, `find old` is null and `find new` is `S`, `S` holds `new`, and every client of
`m_clients` has received the line `#renamed old new` (`S` after its line `#alias new`). -/
theorem C9_rename (events : List Event) (S : ClientPtr) (new : Str)
    (hS : S ∈ (run events).m_clients) (hact : ((run events).heap S).m_active = true)
    (hne : new ≠ []) (hN : ∀ c ∈ new, isspace c = false)
    (hfree : (run events).find new = none) :
    ((run events).process S ("/alias ".toList ++ new)).find ((run events).heap S).m_alias =
        none ∧
      ((run events).process S ("/alias ".toList ++ new)).find new = some S ∧
      (((run events).process S ("/alias ".toList ++ new)).heap S).m_alias = new ∧
      (((run events).process S ("/alias ".toList ++ new)).heap S).sent =
        ((run events).heap S).sent ++ ["#alias ".toList ++ new,
          "#renamed ".toList ++ ((run events).heap S).m_alias ++ " ".toList ++ new] ∧
      (∀ q ∈ (run events).m_clients, q ≠ S →
        (((run events).process S ("/alias ".toList ++ new)).heap q).sent =
          ((run events).heap q).sent ++
            ["#renamed ".toList ++ ((run events).heap S).m_alias ++ " ".toList ++ new]) ∧
      ((run events).process S ("/alias ".toList ++ new)).m_clients = (run events).m_clients :=
  rename_succeeds (run events) S new (inv_run events) hS hact hne hN hfree

/-- C9 at the scenario of two clients: `bob` sends `/alias carol`. -/
theorem C9_rename_witness :
    ((run [Event.accept, Event.accept, Event.recv 0 ["alice".toList],
        Event.recv 1 ["bob".toList]]).process 1 ("/alias ".toList ++ "carol".toList)).find
        ((run [Event.accept, Event.accept, Event.recv 0 ["alice".toList],
          Event.recv 1 ["bob".toList]]).heap 1).m_alias = none ∧
      ((run [Event.accept, Event.accept, Event.recv 0 ["alice".toList],
        Event.recv 1 ["bob".toList]]).process 1 ("/alias ".toList ++ "carol".toList)).find
        "carol".toList = some 1 :=
  ⟨(C9_rename [Event.accept, Event.accept, Event.recv 0 ["alice".toList],
      Event.recv 1 ["bob".toList]] 1 "carol".toList (by decide) (by decide) (by decide)
      (by decide) (by decide)).1,
    (C9_rename [Event.accept, Event.accept, Event.recv 0 ["alice".toList],
      Event.recv 1 ["bob".toList]] 1 "carol".toList (by decide) (by decide) (by decide)
      (by decide) (by decide)).2.1⟩

/-- C10: for every state, every client `S` and every word `N`, the line `/alias N` is
answered with `#error invalid_alias` exactly when `N` is the alias of a client of `m_clients`
(so also for the alias of `S` itself when `S` is in `m_clients`); in that case the only effect
is that line written to `S`: the alias of `S` is unchanged, and no line sent to anyone begins
with `#renamed` or `#alias`. -/
theorem C10_rename_conflict (s : Server) (S : ClientPtr) (N : Str)
    (hne : N ≠ []) (hN : ∀ c ∈ N, isspace c = false) :
    (((s.process S ("/alias ".toList ++ N)).heap S).sent = (s.heap S).sent ++ [INVALID_ALIAS] ↔
        ∃ q ∈ s.m_clients, (s.heap q).m_alias = N) ∧
      (S ∈ s.m_clients → (s.heap S).m_alias = N →
        ((s.process S ("/alias ".toList ++ N)).heap S).sent =
          (s.heap S).sent ++ [INVALID_ALIAS]) ∧
      ((∃ q ∈ s.m_clients, (s.heap q).m_alias = N) →
        s.process S ("/alias ".toList ++ N) = Client.write s S INVALID_ALIAS ∧
        ((s.process S ("/alias ".toList ++ N)).heap S).m_alias = (s.heap S).m_alias ∧
        ∀ q, ∃ new, ((s.process S ("/alias ".toList ++ N)).heap q).sent =
            (s.heap q).sent ++ new ∧
          ∀ m ∈ new, ¬ "#renamed".toList <+: m ∧ ¬ "#alias".toList <+: m) := by
  have htaken : (∃ q ∈ s.m_clients, (s.heap q).m_alias = N) →
      s.process S ("/alias ".toList ++ N) = Client.write s S INVALID_ALIAS := by
    rintro ⟨q, hq, hqN⟩
    obtain ⟨r, hr⟩ := find_of_mem hq hqN
    rw [process_alias_word s S N hne hN]
    simp [hr]
  have hsent : (∃ q ∈ s.m_clients, (s.heap q).m_alias = N) →
      ((s.process S ("/alias ".toList ++ N)).heap S).sent =
        (s.heap S).sent ++ [INVALID_ALIAS] := by
    intro h
    rw [htaken h]
    simp
  refine ⟨⟨?_, hsent⟩, fun hS hSN => hsent ⟨S, hS, hSN⟩, ?_⟩
  · intro h
    by_contra hnone
    have hfree : s.find N = none := by
      rw [find_eq_none_iff]
      intro q hq e
      exact hnone ⟨q, hq, e⟩
    rw [process_alias_word s S N hne hN] at h
    simp only [hfree, if_true] at h
    have hhead : ∀ k (m : Str), (s.heap S).sent ++ ("#alias ".toList ++ N) :: List.replicate k m ≠
        (s.heap S).sent ++ [INVALID_ALIAS] := by
      intro k m e
      have e2 := List.append_cancel_left e
      have e3 := (List.cons.inj e2).1
      simp [INVALID_ALIAS] at e3
    split at h
    · rw [broadcast_eq_bcast, bcast_sent, rename_sent] at h
      simp only [if_true, List.append_assoc, List.singleton_append] at h
      exact hhead _ _ h
    · rw [rename_sent] at h
      simp only [if_true] at h
      exact hhead 0 [] h
  · intro h
    refine ⟨htaken h, ?_, ?_⟩
    · rw [htaken h]; simp
    · intro q
      rw [htaken h, write_sent]
      by_cases hq : q = S
      · refine ⟨[INVALID_ALIAS], by simp [hq], ?_⟩
        intro m hm
        rw [List.mem_singleton] at hm
        subst hm
        decide
      · exact ⟨[], by simp [hq], by simp⟩

/-- C10 at the scenario of two clients: `alice` sends `/alias bob`. -/
theorem C10_rename_conflict_witness :
    ((two_clients.process 0 ("/alias ".toList ++ "bob".toList)).heap 0).sent =
        (two_clients.heap 0).sent ++ [INVALID_ALIAS] ↔
      ∃ q ∈ two_clients.m_clients, (two_clients.heap q).m_alias = "bob".toList :=
  (C10_rename_conflict two_clients 0 "bob".toList (by decide) (by decide)).1

end Server

/-! ## Command lines in general, and `remove` -/

namespace Server

/-- A line made of white space, a command word that begins with `/`, and then nothing or
white space and a payload: the processor of the table is called on the payload without its
leading white space, and a word that is not in the table is answered with
`#error invalid_command`. -/
theorem process_token (s : Server) (c : ClientPtr) (sp cmd tail : Str)
    (hsp : ∀ x ∈ sp, isspace x = true)
    (hne : cmd ≠ []) (hcmd : ∀ x ∈ cmd, isspace x = false) (hhead : cmd.head? = some '/')
    (htail : ∀ x ∈ tail.head?, isspace x = true) :
    s.process c (sp ++ (cmd ++ tail)) =
      match PROCESSORS.lookup cmd with
      | some processor => processor s c (ws tail)
      | none => Client.write s c INVALID_COMMAND := by
  have hx := extract_token sp cmd tail hsp hne hcmd htail
  unfold process
  rw [hx]
  simp only [hhead, if_true]

theorem process_quit_line (s : Server) (c : ClientPtr) :
    s.process c "/quit".toList = s.remove c := by
  have h := process_token s c [] "/quit".toList [] (by simp) (by decide) (by decide)
    (by decide) (by simp)
  simp only [List.nil_append, List.append_nil] at h
  rw [h, lookup_eq]
  rfl

theorem process_list_line (s : Server) (c : ClientPtr) :
    s.process c "/list".toList = s.process_list c [] := by
  have h := process_token s c [] "/list".toList [] (by simp) (by decide) (by decide)
    (by decide) (by simp)
  simp only [List.nil_append, List.append_nil] at h
  rw [h, lookup_eq]
  rfl

/-- What `remove` sends when no client is twice in `m_clients`: when the alias of the client
is set, one line `#disconnected` to each other client of `m_clients`; else nothing. -/
theorem remove_sent (s : Server) (S : ClientPtr) (hnd : s.m_clients.Nodup) (q : ClientPtr) :
    ((s.remove S).heap q).sent =
      if (s.heap S).m_alias ≠ [] ∧ q ∈ s.m_clients ∧ q ≠ S then
        (s.heap q).sent ++ ["#disconnected ".toList ++ (s.heap S).m_alias]
      else (s.heap q).sent := by
  unfold remove
  simp only
  by_cases ha : (s.heap S).m_alias = []
  · simp [ha]
  · simp only [ne_eq, ha, not_false_eq_true, if_true, true_and]
    rw [broadcast_sent _ _ _ _ (hnd.filter _)]
    simp [List.mem_filter]

end Server

/-! ## C11: the notification of a disconnection -/

namespace Server

/-- The event of a line `/quit` read by the handler of `read`, for an active client. -/
theorem step_quit (s : Server) (S : ClientPtr) (hp : (s.heap S).pending = Pending.read)
    (hact : (s.heap S).m_active = true) :
    s.step (Event.recv S ["/quit".toList]) = Client.read ((s.arm S Pending.idle).remove S) S := by
  have hact2 : (((s.arm S Pending.idle).remove S).heap S).m_active = true := by
    rw [(remove_frame _ S S).2.2.1]
    simpa using hact
  simp only [step, hp, Client.read_lines, List.foldl_cons, List.foldl_nil, process_quit_line,
    hact2, if_true]

/-- The event of an error on the socket of a client whose handler of `read` is armed. -/
theorem step_close_read (s : Server) (S : ClientPtr)
    (hp : (s.heap S).pending = Pending.read) :
    s.step (Event.close S) = (s.arm S Pending.idle).remove S := by
  simp only [step, hp, Client.read_error, process_quit]

/-- The event of an error on the socket of a client whose handler of `start` is armed. -/
theorem step_close_start (s : Server) (S : ClientPtr)
    (hp : (s.heap S).pending = Pending.start) :
    s.step (Event.close S) = Client.start_error s S := by
  simp only [step, hp]

/-- The clients and the logs after `remove`, for a client whose alias is set, in a state
where no client is twice in `m_clients`. -/
theorem remove_named (s : Server) (S : ClientPtr) (hnd : s.m_clients.Nodup)
    (ha : (s.heap S).m_alias ≠ []) :
    (s.remove S).m_clients = s.m_clients.filter (fun c => c ≠ S) ∧
      S ∉ (s.remove S).m_clients ∧
      (∀ q ∈ (s.remove S).m_clients, ((s.remove S).heap q).sent =
        (s.heap q).sent ++ ["#disconnected ".toList ++ (s.heap S).m_alias]) ∧
      (∀ q, q ∉ (s.remove S).m_clients → ((s.remove S).heap q).sent = (s.heap q).sent) := by
  rw [remove_m_clients]
  refine ⟨rfl, by simp [List.mem_filter], ?_, ?_⟩
  · intro q hq
    rw [remove_sent s S hnd]
    obtain ⟨h1, h2⟩ := List.mem_filter.1 hq
    have h3 : q ≠ S := by simpa using h2
    simp [ha, h1, h3]
  · intro q hq
    rw [remove_sent s S hnd]
    have : ¬ (q ∈ s.m_clients ∧ q ≠ S) := by
      intro h
      exact hq (List.mem_filter.2 ⟨h.1, by simpa using h.2⟩)
    simp [this]

/-- The close of a client on whose socket a handler is armed.  In a state that satisfies the
invariant of the reachable states, let `S` be a client of `m_clients`.  When `S` reads messages (it is then active, with an alias `a` that is set),
the line `/quit` from `S` and an error or end of file on its socket both remove `S` from
`m_clients`, make every client that remains receive exactly one line `#disconnected a`, and
make nobody else, `S` included, receive anything.  When `S` waits for its alias (it has not
completed the handshake), an error or end of file on its socket removes `S` from `m_clients`
and nobody receives anything.  And `remove` on a client without alias sends nothing. -/
theorem disconnect_when_armed (s : Server) (S : ClientPtr) (hinv : Inv s) (_hS : S ∈ s.m_clients) :
    ((s.heap S).pending = Pending.read →
      (s.heap S).m_active = true ∧ (s.heap S).m_alias ≠ [] ∧
      ∀ e, e = Event.recv S ["/quit".toList] ∨ e = Event.close S →
        (s.step e).m_clients = s.m_clients.filter (fun c => c ≠ S) ∧
        S ∉ (s.step e).m_clients ∧
        (∀ q ∈ (s.step e).m_clients, ((s.step e).heap q).sent =
          (s.heap q).sent ++ ["#disconnected ".toList ++ (s.heap S).m_alias]) ∧
        (∀ q, q ∉ (s.step e).m_clients → ((s.step e).heap q).sent = (s.heap q).sent) ∧
        ((s.step e).heap S).sent = (s.heap S).sent) ∧
    ((s.heap S).pending = Pending.start →
      (s.heap S).m_active = false ∧
      (s.step (Event.close S)).m_clients = s.m_clients.filter (fun c => c ≠ S) ∧
      S ∉ (s.step (Event.close S)).m_clients ∧
      ∀ q, ((s.step (Event.close S)).heap q).sent = (s.heap q).sent) ∧
    ((s.heap S).m_alias = [] → S ∉ (s.remove S).m_clients ∧
      ∀ q, ((s.remove S).heap q).sent = (s.heap q).sent) := by
  refine ⟨?_, ?_, ?_⟩
  · intro hp
    have hact := hinv.read_active S hp
    have ha := (hinv.active_iff S).1 hact
    refine ⟨hact, ha, ?_⟩
    have hnd0 : (s.arm S Pending.idle).m_clients.Nodup := hinv.nodup
    have ha0 : ((s.arm S Pending.idle).heap S).m_alias ≠ [] := by simpa using ha
    obtain ⟨r1, r2, r3, r4⟩ := remove_named (s.arm S Pending.idle) S hnd0 ha0
    simp only [arm_m_clients, arm_sent, arm_alias] at r1 r3 r4
    have key : ∀ t : Server, t.m_clients = ((s.arm S Pending.idle).remove S).m_clients →
        (∀ q, (t.heap q).sent = (((s.arm S Pending.idle).remove S).heap q).sent) →
        t.m_clients = s.m_clients.filter (fun c => c ≠ S) ∧ S ∉ t.m_clients ∧
        (∀ q ∈ t.m_clients, (t.heap q).sent =
          (s.heap q).sent ++ ["#disconnected ".toList ++ (s.heap S).m_alias]) ∧
        (∀ q, q ∉ t.m_clients → (t.heap q).sent = (s.heap q).sent) ∧
        (t.heap S).sent = (s.heap S).sent := by
      intro t h1 h2
      have hnot : S ∉ t.m_clients := by rw [h1]; exact r2
      refine ⟨h1.trans r1, hnot, ?_, ?_, ?_⟩
      · intro q hq
        rw [h2]
        exact r3 q (h1 ▸ hq)
      · intro q hq
        rw [h2]
        exact r4 q (h1 ▸ hq)
      · rw [h2]
        exact r4 S r2
    rintro e (he | he)
    · rw [he, step_quit s S hp hact]
      exact key _ (by simp [Client.read]) (fun q => by simp [Client.read])
    · rw [he, step_close_read s S hp]
      exact key _ rfl (fun q => rfl)
  · intro hp
    rw [step_close_start s S hp]
    refine ⟨(hinv.start_mem S hp).2, rfl, ?_, ?_⟩
    · simp [Client.start_error, List.mem_filter]
    · intro q
      simp [Client.start_error]
  · intro ha
    refine ⟨by simp [remove_m_clients, List.mem_filter], fun q => ?_⟩
    rw [remove_sent s S hinv.nodup]
    simp [ha]

/-- The close of `bob`, whose handler of `read` is armed, at the scenario of two clients. -/
theorem disconnect_when_armed_example :
    (two_clients.step (Event.close 1)).m_clients = two_clients.m_clients.filter (fun c => c ≠ 1) ∧
      ((two_clients.step (Event.close 1)).heap 0).sent =
        (two_clients.heap 0).sent ++ ["#disconnected ".toList ++ (two_clients.heap 1).m_alias] :=
  ⟨(((disconnect_when_armed two_clients 1 (inv_run _) (by decide)).1 (by decide)).2.2
      (Event.close 1) (Or.inr rfl)).1,
    (((disconnect_when_armed two_clients 1 (inv_run _) (by decide)).1 (by decide)).2.2
      (Event.close 1) (Or.inr rfl)).2.2.1 0 (by decide)⟩

/-- C11, the code at the scenario of a refused alias.  The second client is in `m_clients`, has
not completed the handshake (no alias, `m_active` false), and no handler is armed on its
socket since its alias was refused.  When its socket is closed (error or end of file) no
handler runs: the client is not removed from `m_clients`, where it stays for ever.  It is
still in the roster, as an empty alias, and in the domain of `broadcast`: the chat line that
`bob` sends afterwards is written to it. -/
theorem C11_refused_session_is_never_removed :
    1 ∈ refused.m_clients ∧ (refused.heap 1).m_active = false ∧
      (refused.heap 1).m_alias = [] ∧ (refused.heap 1).pending = Pending.idle ∧
      (refused.step (Event.close 1)).m_clients = [0, 1] ∧
      1 ∈ (refused.step (Event.close 1)).m_clients ∧
      (((refused.step (Event.close 1)).process 0 "/list".toList).heap 0).sent =
        ((refused.step (Event.close 1)).heap 0).sent ++ ["#list bob ".toList] ∧
      (((refused.step (Event.close 1)).process 0 "hi".toList).heap 1).sent =
        [INVALID_ALIAS, "<b>bob</b> : hi".toList] := by
  decide

end Server

/-! ## C12, C13: after `/quit` -/

namespace Server

/-- C12, the code at the scenario of two clients, when `bob` is closed twice.  The line
`/quit` of `bob` removes him and `alice` receives `#disconnected bob`; the handler of `read`
is armed again, since `m_active` is still true.  A second close of `bob` (an end of file on
his socket, or a second line `/quit`) calls `remove` again, which sends `#disconnected bob` to
`alice` a second time: the state is not the one that the first close left. -/
theorem C12_second_close_notifies_again :
    1 ∉ (two_clients.step (Event.recv 1 ["/quit".toList])).m_clients ∧
      ((two_clients.step (Event.recv 1 ["/quit".toList])).heap 1).pending = Pending.read ∧
      (((two_clients.step (Event.recv 1 ["/quit".toList])).step (Event.close 1)).heap 0).sent =
        ((two_clients.step (Event.recv 1 ["/quit".toList])).heap 0).sent ++
          ["#disconnected bob".toList] ∧
      (((two_clients.step (Event.recv 1 ["/quit".toList])).step
          (Event.recv 1 ["/quit".toList])).heap 0).sent =
        ((two_clients.step (Event.recv 1 ["/quit".toList])).heap 0).sent ++
          ["#disconnected bob".toList] ∧
      (((two_clients.step (Event.recv 1 ["/quit".toList])).remove 1).heap 0).sent =
        ((two_clients.step (Event.recv 1 ["/quit".toList])).heap 0).sent ++
          ["#disconnected bob".toList] := by
  decide

/-- C13, the code at the scenario of two clients, when `bob` sends lines after `/quit`.  The
lines behind `/quit` in the same read are dispatched: `alice` receives the chat line `hello`
of `bob`.  The handler of `read` is armed again, so that a later line `/alias zed` of `bob` is
dispatched as well: the alias of `bob` becomes `zed` and `alice` receives
`#renamed bob zed`. -/
theorem C13_lines_after_quit_are_dispatched :
    1 ∉ (two_clients.step (Event.recv 1 ["/quit".toList, "hello".toList])).m_clients ∧
      ((two_clients.step (Event.recv 1 ["/quit".toList, "hello".toList])).heap 0).sent =
        (two_clients.heap 0).sent ++
          ["#disconnected bob".toList, "<b>bob</b> : hello".toList] ∧
      ((two_clients.step (Event.recv 1 ["/quit".toList, "hello".toList])).heap 1).m_active =
        true ∧
      ((two_clients.step (Event.recv 1 ["/quit".toList, "hello".toList])).heap 1).pending =
        Pending.read ∧
      (((two_clients.step (Event.recv 1 ["/quit".toList])).step
          (Event.recv 1 ["/alias zed".toList])).heap 1).m_alias = "zed".toList ∧
      (((two_clients.step (Event.recv 1 ["/quit".toList])).step
          (Event.recv 1 ["/alias zed".toList])).heap 0).sent =
        ((two_clients.step (Event.recv 1 ["/quit".toList])).heap 0).sent ++
          ["#renamed bob zed".toList] := by
  decide

end Server

/-! ## C14: the alias and the flag `m_active` -/

namespace Server

/-- C14: in every state reached from the empty server, for every client, the alias is set
(`m_alias` is not empty) if and only if `m_active` is true; and an empty line is never
accepted as an alias: a client that waits for its alias and sends an empty line stays
inactive, without alias, and receives `#error invalid_alias`. -/
theorem C14_alias_iff_active (events : List Event) :
    (∀ p, ((run events).heap p).m_alias ≠ [] ↔ ((run events).heap p).m_active = true) ∧
      ∀ S rest, ((run events).heap S).pending = Pending.start →
        (((run events).step (Event.recv S ([] :: rest))).heap S).m_active = false ∧
        (((run events).step (Event.recv S ([] :: rest))).heap S).m_alias = [] ∧
        (((run events).step (Event.recv S ([] :: rest))).heap S).sent =
          ((run events).heap S).sent ++ [INVALID_ALIAS] := by
  have hinv := inv_run events
  refine ⟨fun p => (hinv.active_iff p).symm, ?_⟩
  intro S rest hp
  obtain ⟨hS, hact, hal⟩ := hinv.start_facts hp
  have htaken : (run events).find [] ≠ none := by
    obtain ⟨q, hq⟩ := find_of_mem hS hal
    rw [hq]
    exact Option.some_ne_none q
  have hstep : (run events).step (Event.recv S ([] :: rest)) =
      Client.write ((run events).arm S Pending.idle) S INVALID_ALIAS := by
    have hidle : ((Client.write ((run events).arm S Pending.idle) S INVALID_ALIAS).heap S).pending =
        Pending.idle := by
      simp [arm_pending]
    simp only [step, hp, start_line_refused _ S [] htaken]
    cases rest with
    | nil => rfl
    | cons l ls => simp only [hidle]
  rw [hstep]
  exact ⟨by simpa using hact, by simpa using hal, by simp⟩

/-- C14 at a state where a client waits for its alias and sends an empty line. -/
theorem C14_alias_iff_active_witness :
    (((run [Event.accept]).step (Event.recv 0 ([] :: []))).heap 0).m_active = false ∧
      (((run [Event.accept]).step (Event.recv 0 ([] :: []))).heap 0).m_alias = [] ∧
      (((run [Event.accept]).step (Event.recv 0 ([] :: []))).heap 0).sent =
        ((run [Event.accept]).heap 0).sent ++ [INVALID_ALIAS] :=
  (C14_alias_iff_active [Event.accept]).2 0 [] (by decide)

end Server

/-! ## C15, C16, C17: the roster, the unknown commands, the missing arguments -/

namespace Server

/-- C15 does not hold as stated: in the scenario of three clients, where the second client
has no alias yet, `alice` sends `/list` and receives `#list alice  bob`, with two spaces, and
not `#list alice bob`, the aliases of the clients that hold one, separated by single
spaces. -/
theorem C15_roster_keeps_empty_aliases :
    ((three_clients.process 0 "/list".toList).heap 0).sent =
        (three_clients.heap 0).sent ++ ["#list alice  bob".toList] ∧
      "#list ".toList ++ [' '].intercalate
          ((three_clients.m_clients.map (fun c => (three_clients.heap c).m_alias)).filter
            (fun a => a ≠ [])) = "#list alice bob".toList ∧
      ((three_clients.process 0 "/list".toList).heap 0).sent ≠
        (three_clients.heap 0).sent ++
          ["#list ".toList ++ [' '].intercalate
            ((three_clients.m_clients.map (fun c => (three_clients.heap c).m_alias)).filter
              (fun a => a ≠ []))] := by
  decide

/-- C15, amended: for every state and every client `S`, processing `/list` from `S` makes `S`
receive exactly one line: `#list ` followed by the aliases of all the clients of `m_clients`,
in the order of `m_clients`, joined by single spaces, the empty alias of a client that has no
alias yet included.  No other client receives anything, and nothing else changes.  When every
client of `m_clients` holds an alias, the line is the one of the aliases that are set. -/
theorem C15_roster_reply (s : Server) (S : ClientPtr) :
    s.process S "/list".toList =
        Client.write s S ("#list ".toList ++
          [' '].intercalate (s.m_clients.map (fun c => (s.heap c).m_alias))) ∧
      ((s.process S "/list".toList).heap S).sent =
        (s.heap S).sent ++ ["#list ".toList ++
          [' '].intercalate (s.m_clients.map (fun c => (s.heap c).m_alias))] ∧
      (∀ q, q ≠ S → (s.process S "/list".toList).heap q = s.heap q) ∧
      SameCore s (s.process S "/list".toList) ∧
      ((∀ q ∈ s.m_clients, (s.heap q).m_alias ≠ []) →
        (s.m_clients.map (fun c => (s.heap c).m_alias)).filter (fun a => a ≠ []) =
          s.m_clients.map (fun c => (s.heap c).m_alias)) := by
  have hproc : s.process S "/list".toList =
      Client.write s S ("#list ".toList ++
        [' '].intercalate (s.m_clients.map (fun c => (s.heap c).m_alias))) := by
    rw [process_list_line, process_list, list_loop_eq]
  rw [hproc]
  refine ⟨rfl, by simp, fun q hq => write_heap_of_ne _ _ _ hq, sameCore_write _ _ _, ?_⟩
  intro h
  rw [List.filter_eq_self]
  intro a ha
  obtain ⟨q, hq, rfl⟩ := List.mem_map.1 ha
  simpa using h q hq

/-- C15, amended, at the scenario of two clients, where every client holds an alias. -/
theorem C15_roster_reply_witness :
    ((two_clients.process 0 "/list".toList).heap 0).sent =
        (two_clients.heap 0).sent ++ ["#list ".toList ++
          [' '].intercalate (two_clients.m_clients.map (fun c => (two_clients.heap c).m_alias))] ∧
      (two_clients.m_clients.map (fun c => (two_clients.heap c).m_alias)).filter
          (fun a => a ≠ []) =
        two_clients.m_clients.map (fun c => (two_clients.heap c).m_alias) :=
  ⟨(C15_roster_reply two_clients 0).2.1,
    (C15_roster_reply two_clients 0).2.2.2.2 (by decide)⟩

/-- C16: for every state and every client `S`, a line whose first word begins with `/` and is
not one of `/quit`, `/list`, `/alias`, `/private` makes `S` receive exactly
`#error invalid_command`; nothing is sent to another client and nothing else changes. -/
theorem C16_unknown_command (s : Server) (S : ClientPtr) (sp cmd tail : Str)
    (hsp : ∀ x ∈ sp, isspace x = true)
    (hne : cmd ≠ []) (hcmd : ∀ x ∈ cmd, isspace x = false) (hhead : cmd.head? = some '/')
    (htail : ∀ x ∈ tail.head?, isspace x = true)
    (hunknown : cmd ≠ "/quit".toList ∧ cmd ≠ "/list".toList ∧ cmd ≠ "/alias".toList ∧
      cmd ≠ "/private".toList) :
    s.process S (sp ++ (cmd ++ tail)) = Client.write s S INVALID_COMMAND ∧
      ((s.process S (sp ++ (cmd ++ tail))).heap S).sent =
        (s.heap S).sent ++ [INVALID_COMMAND] ∧
      (∀ q, q ≠ S → (s.process S (sp ++ (cmd ++ tail))).heap q = s.heap q) ∧
      SameCore s (s.process S (sp ++ (cmd ++ tail))) := by
  obtain ⟨h1, h2, h3, h4⟩ := hunknown
  have hproc : s.process S (sp ++ (cmd ++ tail)) = Client.write s S INVALID_COMMAND := by
    rw [process_token s S sp cmd tail hsp hne hcmd hhead htail, lookup_eq]
    simp only [h1, h2, h3, h4, if_false]
  rw [hproc]
  exact ⟨rfl, by simp, fun q hq => write_heap_of_ne _ _ _ hq, sameCore_write _ _ _⟩

/-- C16 at the scenario of two clients: `alice` sends `/QUIT now`; the match of the command is
sensitive to the case. -/
theorem C16_unknown_command_witness :
    two_clients.process 0 ([] ++ ("/QUIT".toList ++ " now".toList)) =
        Client.write two_clients 0 INVALID_COMMAND ∧
      ((two_clients.process 0 ([] ++ ("/QUIT".toList ++ " now".toList))).heap 0).sent =
        (two_clients.heap 0).sent ++ [INVALID_COMMAND] ∧
      (∀ q, q ≠ 0 →
        (two_clients.process 0 ([] ++ ("/QUIT".toList ++ " now".toList))).heap q =
          two_clients.heap q) ∧
      SameCore two_clients (two_clients.process 0 ([] ++ ("/QUIT".toList ++ " now".toList))) :=
  C16_unknown_command two_clients 0 [] "/QUIT".toList " now".toList (by simp) (by decide)
    (by decide) (by decide) (by decide) (by decide)

/-- C17: for every state and every client `S`, the command `/alias` and the command
`/private` followed by nothing or by white space only make `S` receive exactly
`#error missing_argument`; nothing is sent to another client. -/
theorem C17_missing_argument (s : Server) (S : ClientPtr) (w : Str)
    (hw : ∀ x ∈ w, isspace x = true) :
    (s.process S ("/alias".toList ++ w) = Client.write s S MISSING_ARGUMENT ∧
      ((s.process S ("/alias".toList ++ w)).heap S).sent =
        (s.heap S).sent ++ [MISSING_ARGUMENT] ∧
      ∀ q, q ≠ S → (s.process S ("/alias".toList ++ w)).heap q = s.heap q) ∧
    (s.process S ("/private".toList ++ w) = Client.write s S MISSING_ARGUMENT ∧
      ((s.process S ("/private".toList ++ w)).heap S).sent =
        (s.heap S).sent ++ [MISSING_ARGUMENT] ∧
      ∀ q, q ≠ S → (s.process S ("/private".toList ++ w)).heap q = s.heap q) := by
  have htail : ∀ x ∈ w.head?, isspace x = true := fun x hx => hw x (List.mem_of_mem_head? hx)
  have hblank : extract (ws w) = none := by rw [ws_blank w hw]; rfl
  have halias : s.process S ("/alias".toList ++ w) = Client.write s S MISSING_ARGUMENT := by
    have h := process_token s S [] "/alias".toList w (by simp) (by decide) (by decide)
      (by decide) htail
    simp only [List.nil_append] at h
    rw [h, lookup_eq]
    show s.process_alias S (ws w) = _
    unfold process_alias
    rw [hblank]
  have hprivate : s.process S ("/private".toList ++ w) = Client.write s S MISSING_ARGUMENT := by
    have h := process_token s S [] "/private".toList w (by simp) (by decide) (by decide)
      (by decide) htail
    simp only [List.nil_append] at h
    rw [h, lookup_eq]
    show s.process_private S (ws w) = _
    unfold process_private
    rw [hblank]
  rw [halias, hprivate]
  exact ⟨⟨rfl, by simp, fun q hq => write_heap_of_ne _ _ _ hq⟩,
    ⟨rfl, by simp, fun q hq => write_heap_of_ne _ _ _ hq⟩⟩

/-- C17 at the scenario of two clients: `alice` sends `/alias` (or `/private`) and a space. -/
theorem C17_missing_argument_witness :
    (two_clients.process 0 ("/alias".toList ++ " ".toList) =
        Client.write two_clients 0 MISSING_ARGUMENT ∧
      ((two_clients.process 0 ("/alias".toList ++ " ".toList)).heap 0).sent =
        (two_clients.heap 0).sent ++ [MISSING_ARGUMENT] ∧
      ∀ q, q ≠ 0 → (two_clients.process 0 ("/alias".toList ++ " ".toList)).heap q =
        two_clients.heap q) ∧
    (two_clients.process 0 ("/private".toList ++ " ".toList) =
        Client.write two_clients 0 MISSING_ARGUMENT ∧
      ((two_clients.process 0 ("/private".toList ++ " ".toList)).heap 0).sent =
        (two_clients.heap 0).sent ++ [MISSING_ARGUMENT] ∧
      ∀ q, q ≠ 0 → (two_clients.process 0 ("/private".toList ++ " ".toList)).heap q =
        two_clients.heap q) :=
  C17_missing_argument two_clients 0 " ".toList (by decide)

end Server

/-! ## C18: the errors of the protocol -/

namespace Server

/-- A line whose second character is not `e` does not begin with `#error`. -/
theorem not_error_of_second (c0 c1 : Char) (x : Str) (h : c1 ≠ 'e') :
    ¬ "#error".toList <+: c0 :: c1 :: x := by
  rintro ⟨t, ht⟩
  have e : "#error".toList = '#' :: 'e' :: "rror".toList := rfl
  rw [e] at ht
  simp only [List.cons_append, List.cons.injEq] at ht
  exact h ht.2.1.symm

theorem noError_refl (s : Server) : NoError s s :=
  fun _ => ⟨[], by simp, by simp⟩

theorem noError_trans {s t u : Server} (h1 : NoError s t) (h2 : NoError t u) :
    NoError s u := by
  intro q
  obtain ⟨n1, a1, b1⟩ := h1 q
  obtain ⟨n2, a2, b2⟩ := h2 q
  refine ⟨n1 ++ n2, by rw [a2, a1, List.append_assoc], ?_⟩
  intro m hm
  rcases List.mem_append.1 hm with h | h
  · exact b1 m h
  · exact b2 m h

theorem noError_write (s : Server) (p : ClientPtr) (m : Str)
    (hm : ¬ "#error".toList <+: m) : NoError s (Client.write s p m) := by
  intro q
  by_cases hq : q = p
  · refine ⟨[m], by simp [write_sent, hq], ?_⟩
    intro x hx
    rw [List.mem_singleton] at hx
    rw [hx]; exact hm
  · exact ⟨[], by simp [write_sent, hq], by simp⟩

theorem noError_broadcast (s : Server) (m : Str) (e : Option ClientPtr)
    (hm : ¬ "#error".toList <+: m) : NoError s (s.broadcast m e) := by
  intro q
  refine ⟨_, by rw [broadcast_eq_bcast, bcast_sent], ?_⟩
  intro x hx
  rw [(List.mem_replicate.1 hx).2]; exact hm

theorem noError_rename (s : Server) (p : ClientPtr) (n : Str) :
    NoError s (Client.rename s p n) := by
  intro q
  by_cases hq : q = p
  · refine ⟨["#alias ".toList ++ n], by simp [rename_sent, hq], ?_⟩
    intro x hx
    rw [List.mem_singleton] at hx
    rw [hx]; exact not_error_of_second '#' 'a' _ (by decide)
  · exact ⟨[], by simp [rename_sent, hq], by simp⟩

theorem noError_remove (s : Server) (p : ClientPtr) : NoError s (s.remove p) := by
  unfold remove
  simp only
  split
  · exact noError_broadcast { s with m_clients := s.m_clients.filter (fun c => c ≠ p) } _ _
      (not_error_of_second '#' 'd' _ (by decide))
  · exact noError_refl s

theorem process_alias_error_or_not (s : Server) (S : ClientPtr) (d : Str) :
    (∃ E, (E = INVALID_ALIAS ∨ E = INVALID_COMMAND ∨ E = INVALID_RECIPIENT ∨
        E = MISSING_ARGUMENT) ∧ s.process_alias S d = Client.write s S E) ∨
      NoError s (s.process_alias S d) := by
  rcases hx : extract d with _ | ⟨n, r⟩
  · have hproc : s.process_alias S d = Client.write s S MISSING_ARGUMENT := by
      unfold process_alias; rw [hx]
    exact Or.inl ⟨_, Or.inr (Or.inr (Or.inr rfl)), hproc⟩
  · by_cases hf : s.find n = none
    · by_cases ha : (s.heap S).m_alias = []
      · have hproc : s.process_alias S d = Client.rename s S n := by
          unfold process_alias; rw [hx]; simp [hf, ha]
        rw [hproc]
        exact Or.inr (noError_rename s S n)
      · have hproc : s.process_alias S d = (Client.rename s S n).broadcast
            ("#renamed ".toList ++ (s.heap S).m_alias ++ " ".toList ++ n) none := by
          unfold process_alias; rw [hx]; simp [hf, ha]
        rw [hproc]
        exact Or.inr (noError_trans (noError_rename s S n)
          (noError_broadcast _ _ _ (not_error_of_second '#' 'r' _ (by decide))))
    · have hproc : s.process_alias S d = Client.write s S INVALID_ALIAS := by
        unfold process_alias; rw [hx]; simp [hf]
      exact Or.inl ⟨_, Or.inl rfl, hproc⟩

theorem process_private_error_or_not (s : Server) (S : ClientPtr) (d : Str) :
    (∃ E, (E = INVALID_ALIAS ∨ E = INVALID_COMMAND ∨ E = INVALID_RECIPIENT ∨
        E = MISSING_ARGUMENT) ∧ s.process_private S d = Client.write s S E) ∨
      NoError s (s.process_private S d) := by
  rcases hx : extract d with _ | ⟨X, r⟩
  · have hproc : s.process_private S d = Client.write s S MISSING_ARGUMENT := by
      unfold process_private; rw [hx]
    exact Or.inl ⟨_, Or.inr (Or.inr (Or.inr rfl)), hproc⟩
  · rcases hf : s.find X with _ | R
    · have hproc : s.process_private S d = Client.write s S INVALID_RECIPIENT := by
        unfold process_private; rw [hx]; simp only [hf]
      exact Or.inl ⟨_, Or.inr (Or.inr (Or.inl rfl)), hproc⟩
    · by_cases hc : getline (ws r) = []
      · have hproc : s.process_private S d = Client.write s S MISSING_ARGUMENT := by
          unfold process_private; rw [hx]; simp [hf, hc]
        exact Or.inl ⟨_, Or.inr (Or.inr (Or.inr rfl)), hproc⟩
      · have hproc : s.process_private S d = Client.write s R
            ("#private ".toList ++ (s.heap S).m_alias ++ " ".toList ++ getline (ws r)) := by
          unfold process_private; rw [hx]; simp [hf, hc]
        rw [hproc]
        exact Or.inr (noError_write s R _ (not_error_of_second '#' 'p' _ (by decide)))

/-- The method `process` either writes one line `#error` to the client and does nothing else,
or sends no line that begins with `#error`. -/
theorem process_error_or_not (s : Server) (S : ClientPtr) (line : Str) :
    (∃ E, (E = INVALID_ALIAS ∨ E = INVALID_COMMAND ∨ E = INVALID_RECIPIENT ∨
        E = MISSING_ARGUMENT) ∧ s.process S line = Client.write s S E) ∨
      NoError s (s.process S line) := by
  rcases hx : extract line with _ | ⟨command, rest⟩
  · have hproc : s.process S line = s := by
      unfold process; rw [hx]
    rw [hproc]
    exact Or.inr (noError_refl s)
  · by_cases hhead : command.head? = some '/'
    · have hproc : s.process S line =
          match PROCESSORS.lookup command with
          | some processor => processor s S (ws rest)
          | none => Client.write s S INVALID_COMMAND := by
        unfold process; rw [hx]; simp only [hhead, if_true]
      rw [hproc, lookup_eq]
      split_ifs
      · exact Or.inr (noError_remove s S)
      · exact Or.inr (noError_write s S _ (not_error_of_second '#' 'l' _ (by decide)))
      · exact process_alias_error_or_not s S (ws rest)
      · exact process_private_error_or_not s S (ws rest)
      · exact Or.inl ⟨_, Or.inr (Or.inl rfl), rfl⟩
    · have hproc : s.process S line = s.process_message S line := by
        unfold process; rw [hx]; simp only [hhead, if_false]
      rw [hproc]
      exact Or.inr (noError_broadcast s _ _ (not_error_of_second '<' 'b' _ (by decide)))

/-- C18: for every state and every line from a client `S` that `process` answers with a line
`e` beginning with `#error` (`e` is among the lines `new` that the log of `S` gains), the
whole effect is that one line written to `S`: `S` receives exactly `e`, which is one of the
four errors, no other client receives anything, and neither `m_clients` nor any alias
changes. -/
theorem C18_errors_are_private (s : Server) (S : ClientPtr) (line : Str) (new : List Str)
    (e : Str) (hnew : ((s.process S line).heap S).sent = (s.heap S).sent ++ new)
    (he : e ∈ new) (herr : "#error".toList <+: e) :
    s.process S line = Client.write s S e ∧ new = [e] ∧
      (e = INVALID_ALIAS ∨ e = INVALID_COMMAND ∨ e = INVALID_RECIPIENT ∨
        e = MISSING_ARGUMENT) ∧
      (∀ q, q ≠ S → (s.process S line).heap q = s.heap q) ∧
      (s.process S line).m_clients = s.m_clients ∧
      (∀ q, ((s.process S line).heap q).m_alias = (s.heap q).m_alias) := by
  rcases process_error_or_not s S line with ⟨E, hE, hproc⟩ | hno
  · rw [hproc] at hnew ⊢
    have hn : new = [E] := by
      rw [write_sent_self] at hnew
      exact (List.append_cancel_left hnew).symm
    have heE : e = E := by
      rw [hn] at he
      exact List.mem_singleton.1 he
    subst heE
    exact ⟨rfl, hn, hE, fun q hq => write_heap_of_ne _ _ _ hq, rfl, fun q => by simp⟩
  · obtain ⟨n, h1, h2⟩ := hno S
    have hn : n = new := List.append_cancel_left (h1.symm.trans hnew)
    exact absurd herr (h2 e (hn ▸ he))

/-- C18 at the scenario of two clients: `alice` sends `/private carol hi`. -/
theorem C18_errors_are_private_witness :
    two_clients.process 0 "/private carol hi".toList =
        Client.write two_clients 0 INVALID_RECIPIENT ∧
      [INVALID_RECIPIENT] = [INVALID_RECIPIENT] ∧
      (INVALID_RECIPIENT = INVALID_ALIAS ∨ INVALID_RECIPIENT = INVALID_COMMAND ∨
        INVALID_RECIPIENT = INVALID_RECIPIENT ∨ INVALID_RECIPIENT = MISSING_ARGUMENT) ∧
      (∀ q, q ≠ 0 → (two_clients.process 0 "/private carol hi".toList).heap q =
        two_clients.heap q) ∧
      (two_clients.process 0 "/private carol hi".toList).m_clients = two_clients.m_clients ∧
      (∀ q, ((two_clients.process 0 "/private carol hi".toList).heap q).m_alias =
        (two_clients.heap q).m_alias) :=
  C18_errors_are_private two_clients 0 "/private carol hi".toList [INVALID_RECIPIENT]
    INVALID_RECIPIENT (by decide) (by decide) (by decide)

end Server

/-! ## C19: `broadcast` -/

namespace Server

/-- C19: in a state where no client is twice in `m_clients`, for every message `m` and every
excluded client `e` (or none), `broadcast` adds exactly one copy of `m` to the log of every
client of `m_clients` other than `e`, whether it is active or not, adds nothing to the log of
`e` nor to the log of a client out of `m_clients`, and changes neither `m_clients` nor an
alias, a flag `m_active` or a handler; with no exclusion every client of `m_clients` receives
exactly one copy. -/
theorem C19_broadcast_fan_out (s : Server) (m : Str) (e : Option ClientPtr)
    (hnd : s.m_clients.Nodup) :
    (∀ q ∈ s.m_clients, some q ≠ e →
        ((s.broadcast m e).heap q).sent = (s.heap q).sent ++ [m]) ∧
      (∀ q, some q = e → ((s.broadcast m e).heap q).sent = (s.heap q).sent) ∧
      (∀ q, q ∉ s.m_clients → ((s.broadcast m e).heap q).sent = (s.heap q).sent) ∧
      SameCore s (s.broadcast m e) ∧
      (e = none → ∀ q ∈ s.m_clients,
        ((s.broadcast m e).heap q).sent = (s.heap q).sent ++ [m]) := by
  refine ⟨?_, ?_, ?_, sameCore_broadcast s m e, ?_⟩
  · intro q hq hqe
    rw [broadcast_sent s m e q hnd]
    simp [hq, hqe]
  · intro q hqe
    rw [broadcast_sent s m e q hnd]
    simp [hqe]
  · intro q hq
    rw [broadcast_sent s m e q hnd]
    simp [hq]
  · intro he q hq
    rw [broadcast_sent s m e q hnd]
    simp [hq, he]

/-- C19 at the scenario of three clients, `alice` excluded: the second client, which has no
alias yet, receives the message. -/
theorem C19_broadcast_fan_out_witness :
    ((three_clients.broadcast "hello".toList (some 0)).heap 1).sent =
        (three_clients.heap 1).sent ++ ["hello".toList] ∧
      (three_clients.heap 1).m_active = false ∧
      ((three_clients.broadcast "hello".toList (some 0)).heap 0).sent =
        (three_clients.heap 0).sent :=
  ⟨(C19_broadcast_fan_out three_clients "hello".toList (some 0) (by decide)).1 1 (by decide)
      (by decide),
    by decide,
    (C19_broadcast_fan_out three_clients "hello".toList (some 0) (by decide)).2.1 0 rfl⟩

end Server

/-! ## C20: the aliases and the white space -/

namespace Server

/-- C20, the code at the scenario of an alias with a space: the handler of `start` takes the
whole line `bob smith` as the alias of the first client, which holds a space.  The second
client, `alice`, cannot name it in `/private`: the line `/private bob smith hi` is answered
with `#error invalid_recipient`, and the first client receives nothing.  The command `/alias`
takes a word only: with `/alias al smith`, the alias of `alice` becomes `al`. -/
theorem C20_handshake_alias_with_space :
    0 ∈ spaced_alias.m_clients ∧ (spaced_alias.heap 0).m_active = true ∧
      (spaced_alias.heap 0).m_alias = "bob smith".toList ∧
      ' ' ∈ (spaced_alias.heap 0).m_alias ∧ isspace ' ' = true ∧
      ((spaced_alias.process 1 "/private bob smith hi".toList).heap 1).sent =
        (spaced_alias.heap 1).sent ++ [INVALID_RECIPIENT] ∧
      ((spaced_alias.process 1 "/private bob smith hi".toList).heap 0).sent =
        (spaced_alias.heap 0).sent ∧
      ((spaced_alias.process 1 "/alias al smith".toList).heap 1).m_alias = "al".toList := by
  decide

end Server

/-! ## C21: the blank lines -/

namespace Server

/-- C21: for every state and every client `S`, a line that is empty or made of white space
only is neither a command nor a chat message: `process` returns the state unchanged, so that
nothing is sent to any client.  Through the handler of `read` of an active client the state
is unchanged as well: the handler is armed again. -/
theorem C21_blank_line_ignored (s : Server) (S : ClientPtr) (line : Str)
    (hblank : ∀ c ∈ line, isspace c = true) :
    s.process S line = s ∧
      (∀ q, ((s.process S line).heap q).sent = (s.heap q).sent) ∧
      ((s.heap S).pending = Pending.read → (s.heap S).m_active = true →
        (s.step (Event.recv S [line])).m_clients = s.m_clients ∧
        ∀ q, (s.step (Event.recv S [line])).heap q = s.heap q) := by
  have hproc : s.process S line = s := by
    unfold process
    rw [extract_blank line hblank]
  have hproc2 : ∀ t : Server, t.process S line = t := by
    intro t
    unfold process
    rw [extract_blank line hblank]
  refine ⟨hproc, fun q => by rw [hproc], ?_⟩
  intro hp hact
  have hact2 : ((s.arm S Pending.idle).heap S).m_active = true := by simpa using hact
  simp only [step, hp, Client.read_lines, List.foldl_cons, List.foldl_nil, hproc2, hact2,
    if_true, Client.read]
  refine ⟨rfl, fun q => ?_⟩
  by_cases hq : q = S
  · subst hq
    simp only [arm, store_heap_self]
    rw [← hp]
  · simp [arm, store_heap, hq]

/-- C21 at the scenario of two clients: `alice` sends a line of two spaces and a tab. -/
theorem C21_blank_line_ignored_witness :
    two_clients.process 0 [' ', ' ', '\t'] = two_clients ∧
      (∀ q, ((two_clients.process 0 [' ', ' ', '\t']).heap q).sent = (two_clients.heap q).sent) ∧
      ((two_clients.heap 0).pending = Pending.read → (two_clients.heap 0).m_active = true →
        (two_clients.step (Event.recv 0 [[' ', ' ', '\t']])).m_clients = two_clients.m_clients ∧
        ∀ q, (two_clients.step (Event.recv 0 [[' ', ' ', '\t']])).heap q = two_clients.heap q) :=
  C21_blank_line_ignored two_clients 0 [' ', ' ', '\t'] (by decide)

end Server

/-! ## C22: the roster, from the server to the client -/

namespace Chat

open Server (Str)

/-- The white space of the server (`std::isspace`) is white space for the client
(`QChar::isSpace`). -/
theorem chat_isSpace_of_isspace (c : Char) (h : Server.isspace c = true) : isSpace c = true := by
  simp only [Server.isspace, decide_eq_true_eq] at h
  rcases h with h | h | h | h | h | h <;> subst h <;> decide

theorem chat_dropWhile_blank (sp t : Str) (hsp : ∀ c ∈ sp, isSpace c = true) :
    (sp ++ t).dropWhile isSpace = t.dropWhile isSpace := by
  induction sp with
  | nil => rfl
  | cons c sp ih =>
    have hc : isSpace c = true := hsp c (List.mem_cons_self _ _)
    rw [List.cons_append, List.dropWhile_cons_of_pos hc]
    exact ih (fun x hx => hsp x (List.mem_cons_of_mem _ hx))

theorem chat_word_split (X tail : Str) (hX : ∀ c ∈ X, isSpace c = false)
    (htail : ∀ c ∈ tail.head?, isSpace c = true) :
    (X ++ tail).takeWhile (fun x => !isSpace x) = X ∧
      (X ++ tail).dropWhile (fun x => !isSpace x) = tail := by
  induction X with
  | nil =>
    cases tail with
    | nil => simp
    | cons c t =>
      have hc : isSpace c = true := htail c (by simp)
      simp [List.takeWhile_cons, List.dropWhile_cons, hc]
  | cons x X ih =>
    have hx : isSpace x = false := hX x (List.mem_cons_self _ _)
    obtain ⟨h1, h2⟩ := ih (fun c hc => hX c (List.mem_cons_of_mem _ hc))
    simp [List.takeWhile_cons, List.dropWhile_cons, hx, h1, h2]

/-- The word read by `>>` in a stream that holds white space `sp`, a word `X` that is not empty
and holds no white space, and then nothing or white space: the word is `X`, and the stream is
left just behind it. -/
theorem chat_readWord_token (sp X tail : Str) (hsp : ∀ c ∈ sp, isSpace c = true)
    (hne : X ≠ []) (hX : ∀ c ∈ X, isSpace c = false)
    (htail : ∀ c ∈ tail.head?, isSpace c = true) :
    readWord (sp ++ (X ++ tail)) = (X, tail) := by
  obtain ⟨x, X1, rfl⟩ := List.exists_cons_of_ne_nil hne
  have hx : isSpace x = false := hX x (List.mem_cons_self _ _)
  obtain ⟨h1, h2⟩ := chat_word_split (x :: X1) tail hX htail
  have hd : (sp ++ (x :: X1 ++ tail)).dropWhile isSpace = x :: X1 ++ tail := by
    rw [chat_dropWhile_blank sp _ hsp, List.cons_append,
      List.dropWhile_cons_of_neg (by simp [hx])]
  unfold readWord
  rw [hd, h1, h2]

/-- The word read by `>>` in a stream of white space is empty, and the stream is at its
end. -/
theorem chat_readWord_blank (sp : Str) (hsp : ∀ c ∈ sp, isSpace c = true) :
    readWord sp = ([], []) := by
  have hd : sp.dropWhile isSpace = [] := by
    have := chat_dropWhile_blank sp [] hsp
    simpa using this
  unfold readWord
  rw [hd]
  rfl

theorem chat_list_loop_nil (pseudos : List Str) : list_loop [] pseudos = pseudos := by
  rw [list_loop]

theorem chat_list_loop_cons (c : Char) (t : Str) (pseudos : List Str) :
    list_loop (c :: t) pseudos =
      list_loop (readWord (c :: t)).2
        (if (readWord (c :: t)).1 ≠ [] then pseudos ++ [(readWord (c :: t)).1]
          else pseudos) := by
  rw [list_loop]

/-- The loop of `Chat::process_list` on a stream where each word of `L` follows a space: the
words of `L` are put behind `pseudos`, in the same order. -/
theorem chat_list_loop_words (L : List Str) (pseudos : List Str)
    (hne : ∀ a ∈ L, a ≠ []) (hws : ∀ a ∈ L, ∀ c ∈ a, isSpace c = false) :
    list_loop (L.map (fun a => ' ' :: a)).flatten pseudos = pseudos ++ L := by
  induction L generalizing pseudos with
  | nil => simp [chat_list_loop_nil]
  | cons a L ih =>
    have ha : a ≠ [] := hne a (List.mem_cons_self _ _)
    have hstream : ((a :: L).map (fun a => ' ' :: a)).flatten =
        ' ' :: (a ++ (L.map (fun a => ' ' :: a)).flatten) := by
      simp
    have htail : ∀ c ∈ ((L.map (fun a => ' ' :: a)).flatten).head?, isSpace c = true := by
      cases L with
      | nil => simp
      | cons b L => simp; decide
    have hread : readWord (' ' :: (a ++ (L.map (fun a => ' ' :: a)).flatten)) =
        (a, (L.map (fun a => ' ' :: a)).flatten) := by
      have := chat_readWord_token [' '] a _ (by simp; decide) ha
        (hws a (List.mem_cons_self _ _)) htail
      simpa using this
    rw [hstream, chat_list_loop_cons, hread]
    simp only [ha, ne_eq, not_false_eq_true, if_true]
    rw [ih _ (fun b hb => hne b (List.mem_cons_of_mem _ hb))
      (fun b hb => hws b (List.mem_cons_of_mem _ hb))]
    simp

/-- The aliases joined by single spaces: the first one, then each other one behind a
space. -/
theorem chat_intercalate_cons (a : Str) (L : List Str) :
    [' '].intercalate (a :: L) = a ++ (L.map (fun x => ' ' :: x)).flatten := by
  induction L generalizing a with
  | nil => simp [List.intercalate, List.intersperse]
  | cons b L ih =>
    rw [Server.intercalate_cons_cons, ih b]
    simp

/-- The line of the roster, cut behind its command. -/
theorem chat_roster_line (aliases : List Str) :
    "#list ".toList ++ [' '].intercalate aliases =
      [] ++ ("#list".toList ++
        (if aliases = [] then [' '] else (aliases.map (fun a => ' ' :: a)).flatten)) := by
  cases aliases with
  | nil => rfl
  | cons a L =>
    rw [chat_intercalate_cons]
    have e : "#list ".toList = "#list".toList ++ [' '] := rfl
    rw [e]
    simp

/-- The command and the rest of the stream that the handler of `readyRead` reads in the line
of the roster. -/
theorem chat_roster_command (aliases : List Str) :
    readWord ("#list ".toList ++ [' '].intercalate aliases) =
      ("#list".toList,
        if aliases = [] then [' '] else (aliases.map (fun a => ' ' :: a)).flatten) := by
  rw [chat_roster_line]
  apply chat_readWord_token [] "#list".toList _ (by simp) (by decide) (by decide)
  cases aliases with
  | nil => simp; decide
  | cons a L => simp; decide

/-- The loop of `Chat::process_list` on the rest of the line of the roster. -/
theorem chat_roster_loop (aliases : List Str)
    (hne : ∀ a ∈ aliases, a ≠ []) (hws : ∀ a ∈ aliases, ∀ c ∈ a, isSpace c = false) :
    list_loop (if aliases = [] then [' '] else (aliases.map (fun a => ' ' :: a)).flatten) [] =
      aliases := by
  by_cases h : aliases = []
  · subst h
    simp only [if_true]
    rw [chat_list_loop_cons, chat_readWord_blank [' '] (by simp; decide)]
    simp [chat_list_loop_nil]
  · simp only [h, if_false]
    rw [chat_list_loop_words aliases [] hne hws]
    simp

/-- C22: for every list of aliases that are not empty and hold no white space (no character
that `QChar::isSpace` accepts, which covers the white space of the server), the server's
`process_list`, in any state where these are the aliases of the clients of `m_clients`,
writes the line `#list ` followed by the aliases joined by single spaces; the client reads
the command `#list` in that line, and `Chat::process_list` on the rest of the stream gives
back exactly the same list of aliases, in the same order: the handler of `readyRead` emits
`user_list` with that list. -/
theorem C22_roster_round_trip (aliases : List Str)
    (hne : ∀ a ∈ aliases, a ≠ []) (hws : ∀ a ∈ aliases, ∀ c ∈ a, isSpace c = false) :
    (∀ (s : Server) (S : Server.ClientPtr) (d : Str),
        s.m_clients.map (fun c => (s.heap c).m_alias) = aliases →
        s.process_list S d =
          Server.Client.write s S ("#list ".toList ++ [' '].intercalate aliases)) ∧
      (readWord ("#list ".toList ++ [' '].intercalate aliases)).1 = "#list".toList ∧
      list_loop (readWord ("#list ".toList ++ [' '].intercalate aliases)).2 [] = aliases ∧
      readyRead_line ("#list ".toList ++ [' '].intercalate aliases) =
        Signal.user_list aliases := by
  have hcmd := chat_roster_command aliases
  have hloop := chat_roster_loop aliases hne hws
  refine ⟨?_, ?_, ?_, ?_⟩
  · intro s S d hs
    rw [Server.process_list, Server.list_loop_eq, hs]
  · rw [hcmd]
  · rw [hcmd]; exact hloop
  · unfold readyRead_line
    rw [hcmd]
    have hl : PROCESSORS.lookup "#list".toList = some process_list := rfl
    simp only [hl, process_list, hloop]

/-- C22 at the roster `alice`, `bob`. -/
theorem C22_roster_round_trip_witness :
    (readWord ("#list ".toList ++ [' '].intercalate ["alice".toList, "bob".toList])).1 =
        "#list".toList ∧
      list_loop (readWord ("#list ".toList ++
        [' '].intercalate ["alice".toList, "bob".toList])).2 [] =
          ["alice".toList, "bob".toList] ∧
      readyRead_line ("#list ".toList ++ [' '].intercalate ["alice".toList, "bob".toList]) =
        Signal.user_list ["alice".toList, "bob".toList] :=
  (C22_roster_round_trip ["alice".toList, "bob".toList] (by decide) (by decide)).2

/-- An alias that holds the character 0xA0 holds no white space for the server, which takes it
as one word, but the client reads two words in it. -/
theorem chat_alias_with_nbsp_is_split :
    (∀ c ∈ ['a', Char.ofNat 160, 'b'], Server.isspace c = false) ∧
      list_loop (readWord ("#list ".toList ++
        [' '].intercalate [['a', Char.ofNat 160, 'b']])).2 [] = [['a'], ['b']] := by
  refine ⟨by decide, ?_⟩
  have h1 := chat_roster_command [['a', Char.ofNat 160, 'b']]
  rw [h1]
  have h2 : (if [['a', Char.ofNat 160, 'b']] = ([] : List Str) then [' ']
      else ([['a', Char.ofNat 160, 'b']].map (fun a => ' ' :: a)).flatten) =
      [' '] ++ (['a'] ++ [Char.ofNat 160, 'b']) := by decide
  have r1 : readWord (' ' :: 'a' :: [Char.ofNat 160, 'b']) = (['a'], [Char.ofNat 160, 'b']) :=
    chat_readWord_token [' '] ['a'] [Char.ofNat 160, 'b'] (by decide) (by decide) (by decide)
      (by decide)
  have r2 : readWord (Char.ofNat 160 :: ['b']) = (['b'], []) :=
    chat_readWord_token [Char.ofNat 160] ['b'] [] (by decide) (by decide) (by decide)
      (by simp)
  rw [h2]
  show list_loop (' ' :: 'a' :: [Char.ofNat 160, 'b']) [] = [['a'], ['b']]
  rw [chat_list_loop_cons, r1]
  simp only [ne_eq, List.cons_ne_self, not_false_eq_true, if_true, List.nil_append]
  rw [chat_list_loop_cons, r2]
  simp [chat_list_loop_nil]

end Chat
